import Mathlib

/-!
# kartesus/validation.go : a shallow embedding of `main.go`

The Go program is a small field-validation library.  A `Validator` is a
function `func(value any) (any, []error)`; `All` chains validators; `Input`
holds a record and a registry of named validators and `Input.Validate`
reports the outcome to a `ValidationResult`.

Modelling choices, all read off the source:

* a Go `any` is a `Value`: `nil`, a string, or a value of some other dynamic
  type (the code observes such a value only through the failed type assertion
  `value.(string)` and through its `%v` rendering);
* a Go `error` is the message it carries;
* a Go `[]error` is an `ErrSlice`: `none` is the nil slice, `some l` a non-nil
  slice with elements `l` (the code tests `errs != nil`, never `len(errs)`);
* a Go call that panics returns `none`; the only panic in the program is
  `regexp.MustCompile` on a pattern that does not compile;
* a Go `map[string]T` is a `GoMap T`, an association list without repeated
  keys; `range` visits the entries in the order of the list, and the order is
  arbitrary since every list without repeated keys is a `GoMap`;
* `len` of a Go string is its number of UTF-8 bytes, `String.utf8ByteSize`.
-/

namespace Validation

/-! ## Values, errors, slices of errors -/

/-- A Go value of static type `any`. -/
inductive Value where
  /-- The nil interface value. -/
  | nil : Value
  /-- A value of dynamic type `string`. -/
  | str (s : String) : Value
  /-- A value of dynamic type `int`. -/
  | int (n : Int) : Value
  /-- A value of dynamic type `bool`. -/
  | bool (b : Bool) : Value
  /-- A value of any other dynamic type, given by its `%v` rendering. -/
  | other (rendering : String) : Value
  deriving DecidableEq, Repr

/-- The type assertion `value.(string)` succeeds. -/
def Value.isString : Value → Bool
  | .str _ => true
  | _ => false

/-- The text `fmt` prints for a value under the verb `%v`. -/
def Value.fmtV : Value → String
  | .nil => "<nil>"
  | .str s => s
  | .int n => toString n
  | .bool b => if b then "true" else "false"
  | .other r => r

/-- A Go `error`, identified with the message it carries. -/
structure GoError where
  msg : String
  deriving DecidableEq, Repr

/-- A Go `[]error`: `none` is the nil slice. -/
abbrev ErrSlice := Option (List GoError)

/-- The elements of a slice (none for the nil slice). -/
def ErrSlice.toList : ErrSlice → List GoError
  | none => []
  | some l => l

/-- The Go call `append(a, b...)`. -/
def ErrSlice.append : ErrSlice → ErrSlice → ErrSlice
  | none, none => none
  | none, some [] => none
  | none, some (e :: l) => some (e :: l)
  | some a, b => some (a ++ ErrSlice.toList b)

/-- A Go `Validator`: `none` is a call that panics. -/
abbrev Validator := Value → Option (Value × ErrSlice)

/-! ## The primitive validators -/

/-- The error `fmt.Errorf("%v is not a string", value)`. -/
def notAString (value : Value) : GoError :=
  ⟨value.fmtV ++ " is not a string"⟩

/-- Go `String()`; the name carries a prime because `String` is the Lean type. -/
def String' : Validator := fun value =>
  match value with
  | .str str => some (.str str, none)
  | _ => some (.nil, some [notAString value])

/-- Go `Min(min)`; `len(str)` is the byte length. -/
def Min (min : Int) : Validator := fun value =>
  match value with
  | .str str =>
    if (str.utf8ByteSize : Int) < min then
      some (.nil, some [⟨str ++ " must have at lease " ++ toString min ++ " characters"⟩])
    else
      some (.str str, none)
  | _ => some (.nil, some [notAString value])

/-- Go `Max(max)`; `len(str)` is the byte length. -/
def Max (max : Int) : Validator := fun value =>
  match value with
  | .str str =>
    if (str.utf8ByteSize : Int) > max then
      some (.nil, some [⟨str ++ " must have at most " ++ toString max ++ " characters"⟩])
    else
      some (.str str, none)
  | _ => some (.nil, some [notAString value])

/-- The package `regexp` as the program uses it: `MustCompile pattern` is
`none` when the pattern does not compile (the call panics) and otherwise the
predicate `MatchString` of the compiled expression. -/
structure Regexp where
  MustCompile : String → Option (String → Bool)

/-- Go `Match(pattern)`.  The pattern is compiled inside the returned closure,
and only when the value is a string. -/
def Match (re : Regexp) (pattern : String) : Validator := fun value =>
  match value with
  | .str str =>
    match re.MustCompile pattern with
    | none => none
    | some MatchString =>
      if !MatchString str then
        some (.nil, some [⟨str ++ " does not match " ++ pattern⟩])
      else
        some (.str str, none)
  | _ => some (.nil, some [notAString value])

/-! ## The combinator `All` -/

/-- The `for` loop of `All`: the state is the pair of variables `value`,
`errs`; each step assigns both from the validator's results and, when the
new `errs` is not nil, appends it to itself. -/
def All.loop : List Validator → Value → ErrSlice → Option (Value × ErrSlice)
  | [], value, errs => some (value, errs)
  | validator :: rest, value, _ =>
    match validator value with
    | none => none
    | some (value', errs') =>
      if errs' ≠ none then
        All.loop rest value' (ErrSlice.append errs' errs')
      else
        All.loop rest value' errs'

/-- Go `All(validators...)`. -/
def All (validators : List Validator) : Validator := fun value =>
  match All.loop validators value none with
  | none => none
  | some (value', errs) =>
    if errs ≠ none then some (.nil, errs) else some (value', none)

/-! ## The domain validators -/

/-- Go `NameValidator()`. -/
def NameValidator : Validator :=
  All [String', Min 3, Max 50]

/-- Go `EmailValidator()`. -/
def EmailValidator (re : Regexp) : Validator :=
  All [String', Match re "^[a-zA-Z0-9_.+-]+@[a-zA-Z0-9-]+\\.[a-zA-Z0-9-.]+$"]

/-- Go `FiscalNumberValidator()`. -/
def FiscalNumberValidator (re : Regexp) : Validator :=
  All [String', Match re "^[0-9]{10}$"]

/-! ## Go maps with string keys -/

/-- The lookup `m[k]` on the entries of a map. -/
def getEntries {α : Type} (k : String) : List (String × α) → Option α
  | [] => none
  | p :: rest => if p.1 = k then some p.2 else getEntries k rest

/-- The assignment `m[k] = a` on the entries of a map: an existing key keeps
its place, a new key is added. -/
def setEntries {α : Type} (k : String) (a : α) : List (String × α) → List (String × α)
  | [] => [(k, a)]
  | p :: rest =>
    if p.1 = k then (k, a) :: rest else p :: setEntries k a rest

/-- A Go `map[string]α`. -/
structure GoMap (α : Type) where
  entries : List (String × α)
  nodup : (entries.map Prod.fst).Nodup

/-- The empty map, `make(map[string]α)`. -/
def GoMap.empty {α : Type} : GoMap α := ⟨[], List.nodup_nil⟩

/-- The lookup `m[k]`, with `none` for a key that is not in the map. -/
def GoMap.get? {α : Type} (m : GoMap α) (k : String) : Option α :=
  getEntries k m.entries

/-- The assignment `m[k] = a`. -/
def GoMap.set {α : Type} (m : GoMap α) (k : String) (a : α) : GoMap α :=
  ⟨setEntries k a m.entries, by
    have keys : ∀ (l : List (String × α)) (k' : String),
        k' ∈ (setEntries k a l).map Prod.fst → k' = k ∨ k' ∈ l.map Prod.fst := by
      intro l
      induction l with
      | nil => intro k'; simp [setEntries]
      | cons p rest ih =>
        intro k'
        by_cases h : p.1 = k
        · simp [setEntries, h]
        · simp only [setEntries, if_neg h, List.map_cons, List.mem_cons]
          rintro (h1 | h1)
          · exact Or.inr (Or.inl h1)
          · rcases ih k' h1 with h2 | h2
            · exact Or.inl h2
            · exact Or.inr (Or.inr h2)
    have main : ∀ l : List (String × α), (l.map Prod.fst).Nodup →
        ((setEntries k a l).map Prod.fst).Nodup := by
      intro l
      induction l with
      | nil => intro _; simp [setEntries]
      | cons p rest ih =>
        intro h
        simp only [List.map_cons, List.nodup_cons] at h
        by_cases hk : p.1 = k
        · simpa [setEntries, hk] using h
        · simp only [setEntries, if_neg hk, List.map_cons, List.nodup_cons]
          refine ⟨fun h1 => ?_, ih h.2⟩
          rcases keys rest p.1 h1 with h2 | h2
          · exact hk h2
          · exact h.1 h2
    exact main m.entries m.nodup⟩

/-- Go `len(m)`. -/
def GoMap.len {α : Type} (m : GoMap α) : Nat := m.entries.length

/-- The keys of a map. -/
def GoMap.keys {α : Type} (m : GoMap α) : List String := m.entries.map Prod.fst

/-- A map literal: the entries are assigned from left to right. -/
def GoMap.ofList {α : Type} (l : List (String × α)) : GoMap α :=
  l.foldl (fun m p => m.set p.1 p.2) GoMap.empty

/-! ## The record validator -/

/-- Go `Input`. -/
structure Input where
  data : GoMap Value
  validators : GoMap Validator

/-- Go `NewInput(data)`. -/
def NewInput (data : GoMap Value) : Input :=
  { data := data, validators := GoMap.empty }

/-- Go `(*Input).ValidateWith(name, validator)`. -/
def Input.ValidateWith (i : Input) (name : String) (validator : Validator) : Input :=
  { i with validators := i.validators.set name validator }

/-- Go interface `ValidationResult`; a method acts on the state `σ` of the
object that implements it. -/
structure ValidationResult (σ : Type) where
  ValidationFailed : GoMap ErrSlice → σ → σ
  ValidationSucceeded : GoMap Value → σ → σ

/-- The `for ... range i.validators` loop of `Validate`: the state is the
pair of maps `input`, `errors`. -/
def Input.Validate.loop (data : GoMap Value) :
    List (String × Validator) → GoMap Value → GoMap ErrSlice →
      Option (GoMap Value × GoMap ErrSlice)
  | [], input, errors => some (input, errors)
  | (name, validator) :: rest, input, errors =>
    match data.get? name with
    | some value =>
      match validator value with
      | none => none
      | some (value', errs) =>
        if errs ≠ none then
          Input.Validate.loop data rest input (errors.set name errs)
        else
          Input.Validate.loop data rest (input.set name value') errors
    | none =>
      Input.Validate.loop data rest input (errors.set name (some [⟨"missing " ++ name⟩]))

/-- Go `(*Input).Validate(result)`: `none` when a validator panics, otherwise
the state of `result` after the one call made on it. -/
def Input.Validate {σ : Type} (i : Input) (result : ValidationResult σ) (s : σ) : Option σ :=
  match Input.Validate.loop i.data i.validators.entries GoMap.empty GoMap.empty with
  | none => none
  | some (input, errors) =>
    if errors.len > 0 then
      some (result.ValidationFailed errors s)
    else
      some (result.ValidationSucceeded input s)

/-- A call of a method of `ValidationResult`. -/
inductive Call where
  | ValidationFailed (errs : GoMap ErrSlice) : Call
  | ValidationSucceeded (request : GoMap Value) : Call

/-- Make a call on an implementation of `ValidationResult`. -/
def ValidationResult.call {σ : Type} (result : ValidationResult σ) : Call → σ → σ
  | .ValidationFailed errs => result.ValidationFailed errs
  | .ValidationSucceeded request => result.ValidationSucceeded request

/-- The implementation of `ValidationResult` that records the calls made on
it, the latest first. -/
def recorder : ValidationResult (List Call) where
  ValidationFailed := fun errs log => Call.ValidationFailed errs :: log
  ValidationSucceeded := fun request log => Call.ValidationSucceeded request :: log

/-! ## A model of the package `regexp`

The standard library is not part of the repository.  `goRegexp` models
`regexp.MustCompile(pattern).MatchString` for the patterns made of an optional
leading `^`, a sequence of single-character atoms (a literal, an escaped
punctuation character, `.`, a bracket class of characters and ranges), each
with an optional repetition `*`, `+`, `?` or `\x7bn\x7d`, and an optional
trailing `$`.  Both patterns of the repository are of this form.  A pattern
outside this fragment is given no meaning here: the model answers `none` for
it, as it does for a pattern that Go rejects, and that answer says nothing of
what Go does with such a pattern.  The statements below evaluate `goRegexp`
only at the two patterns of the repository and at patterns that Go rejects
too. -/

/-- A set of characters: a union of closed ranges, or the complement of one. -/
structure CharClass where
  negated : Bool
  ranges : List (Char × Char)

/-- Membership of a character in a class. -/
def CharClass.test (cls : CharClass) (c : Char) : Bool :=
  xor cls.negated (cls.ranges.any fun r => decide (r.1 ≤ c) && decide (c ≤ r.2))

/-- How often an atom is repeated. -/
inductive Repeat where
  | one : Repeat
  | opt : Repeat
  | star : Repeat
  | plus : Repeat
  | exactly (n : Nat) : Repeat

/-- An atom with its repetition. -/
structure Item where
  cls : CharClass
  rep : Repeat

/-- A compiled pattern. -/
structure Prog where
  beginText : Bool
  items : List Item
  endText : Bool

/-- A character that a backslash makes literal: ASCII and not a letter or digit. -/
def isPunct (c : Char) : Bool :=
  decide (c.toNat < 128) && !c.isAlphanum

/-- One character of a bracket class, escaped or not, and the rest of the pattern. -/
def parseClassChar : List Char → Option (Char × List Char)
  | [] => none
  | '\\' :: c :: rest => if isPunct c then some (c, rest) else none
  | ['\\'] => none
  | c :: rest => some (c, rest)

/-- The body of a bracket class up to the closing `]`: single characters and
ranges `lo-hi`; a `-` that is not followed by the upper end of a range stands
for itself, and so does a `]` in first place. -/
def parseClassBody : Nat → Bool → List (Char × Char) → List Char →
    Option (List (Char × Char) × List Char)
  | 0, _, _, _ => none
  | _ + 1, _, _, [] => none
  | fuel + 1, first, acc, c :: cs =>
    if c = ']' ∧ first = false then some (acc, cs)
    else if c = '[' ∧ cs.head? = some ':' then none
    else
      match parseClassChar (c :: cs) with
      | none => none
      | some (lo, t) =>
        match t with
        | '-' :: x :: t' =>
          if x = ']' then parseClassBody fuel false (acc ++ [(lo, lo)]) t
          else
            match parseClassChar (x :: t') with
            | none => none
            | some (hi, t'') =>
              if hi < lo then none
              else parseClassBody fuel false (acc ++ [(lo, hi)]) t''
        | _ => parseClassBody fuel false (acc ++ [(lo, lo)]) t

/-- A bracket class, after its opening `[`. -/
def parseClass (cs : List Char) : Option (CharClass × List Char) :=
  match cs with
  | '^' :: rest =>
    (parseClassBody (rest.length + 1) true [] rest).map fun r => (⟨true, r.1⟩, r.2)
  | _ =>
    (parseClassBody (cs.length + 1) true [] cs).map fun r => (⟨false, r.1⟩, r.2)

/-- The decimal digits at the head of a pattern, as a number, and the rest. -/
def parseDigits : Nat → List Char → Nat × List Char
  | acc, [] => (acc, [])
  | acc, c :: cs =>
    if c.isDigit then parseDigits (10 * acc + (c.toNat - '0'.toNat)) cs else (acc, c :: cs)

/-- The repetition that follows an atom, if any, and the rest of the pattern.
A count written with a leading zero, a range of counts and a brace that opens
no count are outside the fragment. -/
def parseRepeat (cs : List Char) : Option (Repeat × List Char) :=
  let checked : Repeat → List Char → Option (Repeat × List Char) := fun r rest =>
    match rest with
    | '*' :: _ => none
    | '+' :: _ => none
    | '?' :: _ => none
    | '\x7b' :: _ => none
    | _ => some (r, rest)
  match cs with
  | '*' :: rest => checked .star rest
  | '+' :: rest => checked .plus rest
  | '?' :: rest => checked .opt rest
  | '\x7b' :: d :: rest =>
    if d.isDigit then
      if d = '0' ∧ (rest.head?.map Char.isDigit) = some true then none
      else
        match parseDigits 0 (d :: rest) with
        | (n, '\x7d' :: rest') => if n ≤ 1000 then checked (.exactly n) rest' else none
        | _ => none
    else none
  | '\x7b' :: [] => none
  | _ => some (.one, cs)

/-- An atom at the head of a pattern and the rest of the pattern. -/
def parseAtom : List Char → Option (CharClass × List Char)
  | [] => none
  | '[' :: rest => parseClass rest
  | '\\' :: c :: rest => if isPunct c then some (⟨false, [(c, c)]⟩, rest) else none
  | ['\\'] => none
  | '.' :: rest => some (⟨true, [('\n', '\n')]⟩, rest)
  | c :: rest =>
    if c ∈ ['^', '$', '*', '+', '?', '(', ')', '|', '\x7b'] then none
    else some (⟨false, [(c, c)]⟩, rest)

/-- The items of a pattern, and whether it ends with `$`. -/
def parseItems : Nat → List Char → Option (List Item × Bool)
  | 0, _ => none
  | _ + 1, [] => some ([], false)
  | _ + 1, ['$'] => some ([], true)
  | fuel + 1, cs =>
    match parseAtom cs with
    | none => none
    | some (cls, rest) =>
      match parseRepeat rest with
      | none => none
      | some (rep, rest') =>
        (parseItems fuel rest').map fun r => (⟨cls, rep⟩ :: r.1, r.2)

/-- The compilation of a pattern of the fragment. -/
def parsePattern (pattern : String) : Option Prog :=
  match pattern.data with
  | '^' :: rest =>
    (parseItems (rest.length + 1) rest).map fun r => ⟨true, r.1, r.2⟩
  | cs =>
    (parseItems (cs.length + 1) cs).map fun r => ⟨false, r.1, r.2⟩

/-- Zero or more characters satisfying `p`, then `k`. -/
def matchStar (p : Char → Bool) (k : List Char → Bool) : List Char → Bool
  | [] => k []
  | c :: cs => k (c :: cs) || (p c && matchStar p k cs)

/-- Exactly `n` characters satisfying `p`, then `k`. -/
def matchCount (p : Char → Bool) (k : List Char → Bool) : Nat → List Char → Bool
  | 0, s => k s
  | _ + 1, [] => false
  | n + 1, c :: cs => p c && matchCount p k n cs

/-- The items match a prefix of the text (the whole text when `endText`). -/
def matchItems (endText : Bool) : List Item → List Char → Bool
  | [] => fun s => !endText || s.isEmpty
  | it :: rest =>
    match it.rep with
    | .one => matchCount it.cls.test (matchItems endText rest) 1
    | .opt => fun s =>
      matchItems endText rest s || matchCount it.cls.test (matchItems endText rest) 1 s
    | .star => matchStar it.cls.test (matchItems endText rest)
    | .plus => matchCount it.cls.test (matchStar it.cls.test (matchItems endText rest)) 1
    | .exactly n => matchCount it.cls.test (matchItems endText rest) n

/-- Go `(*Regexp).MatchString`: the text contains a match of the pattern. -/
def Prog.MatchString (prog : Prog) (s : String) : Bool :=
  if prog.beginText then matchItems prog.endText prog.items s.data
  else matchStar (fun _ => true) (matchItems prog.endText prog.items) s.data

/-- The model of the package `regexp`. -/
def goRegexp : Regexp where
  MustCompile := fun pattern => (parsePattern pattern).map Prog.MatchString

/-! ## Vocabulary of the statements -/

/-- The steps of a chain, run in order, each on the value returned by the one
before it (the first on `x`), all return a nil error slice, and `y` is the
value returned by the last of them (`x` itself for the empty chain). -/
inductive ChainSucceeds : List Validator → Value → Value → Prop
  | nil (x : Value) : ChainSucceeds [] x x
  | cons {validator : Validator} {rest : List Validator} {x y z : Value} :
      validator x = some (y, none) → ChainSucceeds rest y z →
      ChainSucceeds (validator :: rest) x z

/-- What the body of the loop of `Validate` does with one registered field. -/
inductive FieldResult where
  /-- The validator panics. -/
  | panics : FieldResult
  /-- An entry is written to `errors`. -/
  | fails (errs : ErrSlice) : FieldResult
  /-- An entry is written to `input`. -/
  | passes (value : Value) : FieldResult

/-- The result of the body of the loop of `Validate` for the field `name`. -/
def fieldResult (data : GoMap Value) (name : String) (validator : Validator) : FieldResult :=
  match data.get? name with
  | none => .fails (some [⟨"missing " ++ name⟩])
  | some value =>
    match validator value with
    | none => .panics
    | some (value', errs) => if errs ≠ none then .fails errs else .passes value'

/-- `Validate` makes the call `c`, and no other, on whatever implementation of
`ValidationResult` it is given. -/
def Input.Reports (i : Input) (c : Call) : Prop :=
  ∀ (σ : Type) (result : ValidationResult σ) (s : σ),
    i.Validate result s = some (result.call c s)

/-- No validator panics during `Validate`: every registered validator whose
field is in the record returns when called on the value of that field. -/
def Input.Returns (i : Input) : Prop :=
  ∀ (n : String) (v : Validator) (x : Value),
    i.validators.get? n = some v → i.data.get? n = some x → (v x).isSome

/-- The validator that accepts every value and returns it unchanged. -/
def acceptAll : Validator := fun value => some (value, none)

/-- A validator that returns a non-nil slice holding no error. -/
def emptyErrs : Validator := fun value => some (value, some [])

/-- The record and registrations of `main`. -/
def mainInput : Input :=
  (((NewInput (GoMap.ofList [("customerName", .str "John Doe"),
      ("customerEmail", .str "john@gmail.com"), ("fiscalNumber", .str "1234567890")])).ValidateWith
    "customerName" NameValidator).ValidateWith
    "customerEmail" (EmailValidator goRegexp)).ValidateWith
    "fiscalNumber" (FiscalNumberValidator goRegexp)

/-- The registrations of `main` on a record that has no `fiscalNumber`. -/
def noFiscalInput : Input :=
  (((NewInput (GoMap.ofList [("customerName", .str "John Doe"),
      ("customerEmail", .str "john@gmail.com")])).ValidateWith
    "customerName" NameValidator).ValidateWith
    "customerEmail" (EmailValidator goRegexp)).ValidateWith
    "fiscalNumber" (FiscalNumberValidator goRegexp)

/-- A record with the one field `a`, for which `emptyErrs` is registered. -/
def emptyErrsInput : Input :=
  (NewInput (GoMap.ofList [("a", .str "x")])).ValidateWith "a" emptyErrs

/-- The steps of a chain, run in order, each on the value returned by the one
before it (the first on `x`), all return, with or without errors, and `y` is
the value returned by the last of them (`x` itself for the empty chain). -/
inductive ChainRuns : List Validator → Value → Value → Prop
  | nil (x : Value) : ChainRuns [] x x
  | cons {validator : Validator} {rest : List Validator} {x y z : Value} {errs : ErrSlice} :
      validator x = some (y, errs) → ChainRuns rest y z →
      ChainRuns (validator :: rest) x z

/-- The validators built by the four primitive constructors. -/
inductive IsPrimitive (re : Regexp) : Validator → Prop
  | string : IsPrimitive re String'
  | min (n : Int) : IsPrimitive re (Min n)
  | max (n : Int) : IsPrimitive re (Max n)
  | regexp (pattern : String) : IsPrimitive re (Match re pattern)

/-- The compiled form of the pattern of `FiscalNumberValidator`. -/
def fiscalProg : Prog :=
  ⟨true, [⟨⟨false, [('0', '9')]⟩, .exactly 10⟩], true⟩

/-- The three bracket classes of the pattern of `EmailValidator`. -/
def emailLocalClass : CharClass :=
  ⟨false, [('a', 'z'), ('A', 'Z'), ('0', '9'), ('_', '_'), ('.', '.'), ('+', '+'), ('-', '-')]⟩

/-- The class of the pattern of `EmailValidator` between `@` and the dot. -/
def emailDomainClass : CharClass :=
  ⟨false, [('a', 'z'), ('A', 'Z'), ('0', '9'), ('-', '-')]⟩

/-- The class of the pattern of `EmailValidator` after the dot. -/
def emailTailClass : CharClass :=
  ⟨false, [('a', 'z'), ('A', 'Z'), ('0', '9'), ('-', '-'), ('.', '.')]⟩

/-- The compiled form of the pattern of `EmailValidator`. -/
def emailProg : Prog :=
  ⟨true,
    [⟨emailLocalClass, .plus⟩, ⟨⟨false, [('@', '@')]⟩, .one⟩, ⟨emailDomainClass, .plus⟩,
      ⟨⟨false, [('.', '.')]⟩, .one⟩, ⟨emailTailClass, .plus⟩],
    true⟩

/-- An ASCII letter or digit or one of the characters `_`, `.`, `+`, `-`. -/
def isLocalChar (c : Char) : Bool :=
  c.isAlphanum || c == '_' || c == '.' || c == '+' || c == '-'

/-- An ASCII letter or digit or the character `-`. -/
def isDomainChar (c : Char) : Bool :=
  c.isAlphanum || c == '-'

/-- An ASCII letter or digit or one of the characters `-`, `.`. -/
def isTailChar (c : Char) : Bool :=
  c.isAlphanum || c == '-' || c == '.'

/-! ## Lemmas on maps -/

theorem getEntries_setEntries {α : Type} (k : String) (a : α) (l : List (String × α))
    (k' : String) :
    getEntries k' (setEntries k a l) = if k = k' then some a else getEntries k' l := by
  induction l with
  | nil => simp [setEntries, getEntries]
  | cons p rest ih =>
    by_cases h : p.1 = k
    · by_cases h' : k = k'
      · simp [setEntries, getEntries, h, h']
      · have h'' : ¬ p.1 = k' := fun e => h' (h ▸ e)
        simp [setEntries, getEntries, h, h', h'']
    · by_cases h' : p.1 = k'
      · have h'' : ¬ k = k' := fun e => h (h'.trans e.symm)
        rw [if_neg h'']
        simp only [setEntries, if_neg h, getEntries, if_pos h']
      · simp only [setEntries, if_neg h, getEntries, if_neg h', ih]

theorem getEntries_eq_none {α : Type} (k : String) (l : List (String × α)) :
    getEntries k l = none ↔ k ∉ l.map Prod.fst := by
  induction l with
  | nil => simp [getEntries]
  | cons p rest ih =>
    by_cases h : p.1 = k
    · simp [getEntries, h]
    · have h' : ¬ k = p.1 := fun e => h e.symm
      simp [getEntries, h, h', ih]

theorem GoMap.get?_set {α : Type} (m : GoMap α) (k : String) (a : α) (k' : String) :
    (m.set k a).get? k' = if k = k' then some a else m.get? k' :=
  getEntries_setEntries k a m.entries k'

theorem GoMap.get?_empty {α : Type} (k : String) : (GoMap.empty : GoMap α).get? k = none := rfl

theorem GoMap.mem_keys {α : Type} (m : GoMap α) (k : String) :
    k ∈ m.keys ↔ m.get? k ≠ none := by
  unfold GoMap.keys GoMap.get?
  rw [Ne, getEntries_eq_none]
  exact not_not.symm

theorem GoMap.len_pos {α : Type} (m : GoMap α) : 0 < m.len ↔ ∃ k, k ∈ m.keys := by
  unfold GoMap.len GoMap.keys
  cases h : m.entries with
  | nil => simp
  | cons p rest => simp only [List.length_cons, Nat.zero_lt_succ, true_iff]; exact ⟨p.1, by simp⟩

/-! ## Lemmas on `All` -/

theorem All.loop_of_succeeds {c : List Validator} {x z : Value} (h : ChainSucceeds c x z)
    (rest : List Validator) :
    All.loop (c ++ rest) x none = All.loop rest z none := by
  induction h with
  | nil x => rfl
  | cons hv _ ih =>
    rw [List.cons_append]
    simp only [All.loop, hv, ne_eq, not_true_eq_false, if_false]
    exact ih

/-! ## The claims on `All` -/

/-- C2: the claim is that when a step of `All` fails, the errors of the first
failing step are among the errors `All` returns.  On the chain of
`NameValidator` and the value "Jo" the first failing step is `Min 3`, with the
single error "Jo must have at lease 3 characters"; `All` returns twice the
error of `Max 50` on the nil value, and the error of `Min 3` is not among
them. -/
theorem All_loses_first_failing_step :
    String' (.str "Jo") = some (.str "Jo", none) ∧
    Min 3 (.str "Jo") = some (.nil, some [⟨"Jo must have at lease 3 characters"⟩]) ∧
    All [String', Min 3, Max 50] (.str "Jo") =
      some (.nil, some [⟨"<nil> is not a string"⟩, ⟨"<nil> is not a string"⟩]) ∧
    (⟨"Jo must have at lease 3 characters"⟩ : GoError) ∉
      [(⟨"<nil> is not a string"⟩ : GoError), ⟨"<nil> is not a string"⟩] := by
  refine ⟨by decide, by decide, by decide, by decide⟩

/-- C3: the claim is that `All` returns errors as soon as one step returns
errors.  On the chain `String()` followed by a validator that accepts every
value, applied to the integer 42, the first step returns one error and `All`
returns a nil error slice. -/
theorem All_forgets_errors_of_earlier_steps :
    String' (.int 42) = some (.nil, some [⟨"42 is not a string"⟩]) ∧
    All [String', acceptAll] (.int 42) = some (.nil, none) := by
  refine ⟨by decide, by decide⟩

/-- C4: the claim is that `All` returns the errors of a failing last step once
each.  On the chain made of `String()` alone and the integer 42 the step
returns one error and `All` returns it twice. -/
theorem All_duplicates_errors :
    String' (.int 42) = some (.nil, some [⟨"42 is not a string"⟩]) ∧
    All [String'] (.int 42) =
      some (.nil, some [⟨"42 is not a string"⟩, ⟨"42 is not a string"⟩]) := by
  refine ⟨by decide, by decide⟩

/-- C5, as stated, fails: the claim is that `All` returns the value of its
last step whenever every step succeeds.  On the chain `String()` followed by a
validator that returns its argument and a non-nil slice holding no error,
applied to the string "x", both steps return the value "x" and no error, and
`All` returns the nil value, not "x". -/
theorem All_of_steps_without_error :
    String' (.str "x") = some (.str "x", none) ∧
    emptyErrs (.str "x") = some (.str "x", some []) ∧
    ErrSlice.toList none = [] ∧ ErrSlice.toList (some []) = [] ∧
    All [String', emptyErrs] (.str "x") = some (.nil, some []) ∧
    ¬ ∃ e' : ErrSlice, All [String', emptyErrs] (.str "x") = some (.str "x", e') := by
  refine ⟨rfl, rfl, rfl, rfl, by decide, ?_⟩
  rintro ⟨e', h⟩
  have h2 : All [String', emptyErrs] (.str "x") = some (.nil, some []) := by decide
  rw [h2] at h
  simp at h

/-- C5, amended: if every step of a non-empty chain `init ++ [last]` returns a
nil error slice when the steps are run in order, each on the value returned by
the step before it and the first on `x`, then `All` returns the value `y`
returned by the last step and a nil error slice; and `All` of the empty chain
returns its argument unchanged with a nil error slice. -/
theorem All_of_all_steps_succeed (init : List Validator) (last : Validator) (x x' y : Value)
    (hinit : ChainSucceeds init x x') (hlast : last x' = some (y, none)) :
    All (init ++ [last]) x = some (y, none) ∧
    ∀ x0 : Value, All [] x0 = some (x0, none) := by
  constructor
  · unfold All
    rw [All.loop_of_succeeds hinit]
    simp [All.loop, hlast]
  · intro x0; rfl

/-- C5, amended, on the chain of `NameValidator` and the value "John Doe". -/
theorem All_of_all_steps_succeed_witness :
    All ([String', Min 3] ++ [Max 50]) (.str "John Doe") = some (.str "John Doe", none) ∧
    ∀ x0 : Value, All [] x0 = some (x0, none) :=
  All_of_all_steps_succeed [String', Min 3] (Max 50) (.str "John Doe") (.str "John Doe")
    (.str "John Doe")
    (ChainSucceeds.cons (y := .str "John Doe") (by decide)
      (ChainSucceeds.cons (y := .str "John Doe") (by decide) (ChainSucceeds.nil _)))
    (by decide)

/-! ## The claims on the primitive validators -/

/-- C9: on a value that is not a string (nil included), each of `String()`,
`Min(n)`, `Max(n)` and `Match(p)`, for every `n`, every pattern `p` and every
behaviour of the package `regexp`, returns the nil value and exactly one
error, whose message is the `%v` rendering of the value followed by
" is not a string". -/
theorem primitives_on_non_string (v : Value) (hv : v.isString = false) (n : Int)
    (re : Regexp) (p : String) :
    String' v = some (.nil, some [⟨v.fmtV ++ " is not a string"⟩]) ∧
    Min n v = some (.nil, some [⟨v.fmtV ++ " is not a string"⟩]) ∧
    Max n v = some (.nil, some [⟨v.fmtV ++ " is not a string"⟩]) ∧
    Match re p v = some (.nil, some [⟨v.fmtV ++ " is not a string"⟩]) := by
  cases v with
  | str s => simp [Value.isString] at hv
  | nil => exact ⟨rfl, rfl, rfl, rfl⟩
  | int k => exact ⟨rfl, rfl, rfl, rfl⟩
  | bool b => exact ⟨rfl, rfl, rfl, rfl⟩
  | other r => exact ⟨rfl, rfl, rfl, rfl⟩

/-- C9 on the nil value, with a pattern that does not compile. -/
theorem primitives_on_non_string_witness :
    String' .nil = some (.nil, some [⟨"<nil>" ++ " is not a string"⟩]) ∧
    Min 3 .nil = some (.nil, some [⟨"<nil>" ++ " is not a string"⟩]) ∧
    Max 3 .nil = some (.nil, some [⟨"<nil>" ++ " is not a string"⟩]) ∧
    Match goRegexp "(" .nil = some (.nil, some [⟨"<nil>" ++ " is not a string"⟩]) :=
  primitives_on_non_string .nil rfl 3 goRegexp "("

/-- C10: for every string `s` and every integer `min`, with the length of `s`
counted in UTF-8 bytes as Go `len` does: when the length is below `min`,
`Min(min)` returns the nil value and exactly one error; when the length is
`min` or more, it returns `s` unchanged and a nil error slice. -/
theorem Min_on_string (s : String) (min : Int) :
    ((s.utf8ByteSize : Int) < min →
      ∃ e : GoError, Min min (.str s) = some (.nil, some [e])) ∧
    (min ≤ (s.utf8ByteSize : Int) → Min min (.str s) = some (.str s, none)) := by
  constructor
  · intro h
    refine ⟨⟨s ++ " must have at lease " ++ toString min ++ " characters"⟩, ?_⟩
    simp only [Min, if_pos h]
  · intro h
    simp only [Min, if_neg (not_lt.mpr h)]

/-- C10 on strings of length below, equal to and above the bound, and on a zero
and a negative bound. -/
theorem Min_on_string_witness :
    (∃ e : GoError, Min 3 (.str "Jo") = some (.nil, some [e])) ∧
    Min 2 (.str "Jo") = some (.str "Jo", none) ∧
    Min 0 (.str "") = some (.str "", none) ∧
    Min (-1) (.str "") = some (.str "", none) :=
  ⟨(Min_on_string "Jo" 3).1 (by decide), (Min_on_string "Jo" 2).2 (by decide),
    (Min_on_string "" 0).2 (by decide), (Min_on_string "" (-1)).2 (by decide)⟩

/-! ## Lemmas on the loop of `Validate` -/

theorem Validate.loop_cons (data : GoMap Value) (name : String) (validator : Validator)
    (rest : List (String × Validator)) (input : GoMap Value) (errors : GoMap ErrSlice) :
    Input.Validate.loop data ((name, validator) :: rest) input errors =
      match fieldResult data name validator with
      | .panics => none
      | .fails errs => Input.Validate.loop data rest input (errors.set name errs)
      | .passes value => Input.Validate.loop data rest (input.set name value) errors := by
  unfold fieldResult
  rw [Input.Validate.loop]
  cases data.get? name with
  | none => rfl
  | some x =>
    dsimp only
    cases validator x with
    | none => rfl
    | some r =>
      obtain ⟨y, errs⟩ := r
      dsimp only
      by_cases he : errs = none
      · simp only [ne_eq, he, not_true_eq_false, if_false]
      · simp only [ne_eq, he, not_false_eq_true, if_true]

/-- The maps at the end of the loop, field by field. -/
theorem Validate.loop_spec (data : GoMap Value) :
    ∀ (l : List (String × Validator)) (input : GoMap Value) (errors : GoMap ErrSlice)
      (input' : GoMap Value) (errors' : GoMap ErrSlice),
      (l.map Prod.fst).Nodup →
      Input.Validate.loop data l input errors = some (input', errors') →
      ∀ n : String,
        match getEntries n l with
        | none => input'.get? n = input.get? n ∧ errors'.get? n = errors.get? n
        | some v =>
          match fieldResult data n v with
          | .panics => False
          | .fails errs => errors'.get? n = some errs ∧ input'.get? n = input.get? n
          | .passes value => input'.get? n = some value ∧ errors'.get? n = errors.get? n := by
  intro l
  induction l with
  | nil =>
    intro input errors input' errors' _ h n
    simp only [Input.Validate.loop, Option.some.injEq, Prod.mk.injEq] at h
    simp [getEntries, h.1, h.2]
  | cons p rest ih =>
    obtain ⟨name, validator⟩ := p
    intro input errors input' errors' hnd h n
    simp only [List.map_cons, List.nodup_cons] at hnd
    rw [Validate.loop_cons] at h
    by_cases hn : name = n
    · subst hn
      have hrest : getEntries name rest = none := (getEntries_eq_none name rest).mpr hnd.1
      simp only [getEntries, if_true]
      cases hf : fieldResult data name validator with
      | panics => simp [hf] at h
      | fails errs =>
        simp only [hf] at h
        have := ih _ _ _ _ hnd.2 h name
        simp only [hrest, GoMap.get?_set, if_true] at this
        exact ⟨this.2, this.1⟩
      | passes value =>
        simp only [hf] at h
        have := ih _ _ _ _ hnd.2 h name
        simp only [hrest, GoMap.get?_set, if_true] at this
        exact this
    · simp only [getEntries, if_neg hn]
      cases hf : fieldResult data name validator with
      | panics => simp [hf] at h
      | fails errs =>
        simp only [hf] at h
        have := ih _ _ _ _ hnd.2 h n
        simpa only [GoMap.get?_set, if_neg hn] using this
      | passes value =>
        simp only [hf] at h
        have := ih _ _ _ _ hnd.2 h n
        simpa only [GoMap.get?_set, if_neg hn] using this

/-- The loop ends when no validator panics. -/
theorem Validate.loop_returns (data : GoMap Value) :
    ∀ (l : List (String × Validator)) (input : GoMap Value) (errors : GoMap ErrSlice),
      (∀ p ∈ l, ∀ x, data.get? p.1 = some x → (p.2 x).isSome) →
      ∃ r, Input.Validate.loop data l input errors = some r := by
  intro l
  induction l with
  | nil => intro input errors _; exact ⟨_, rfl⟩
  | cons p rest ih =>
    obtain ⟨name, validator⟩ := p
    intro input errors h
    have hrest : ∀ p ∈ rest, ∀ x, data.get? p.1 = some x → (p.2 x).isSome :=
      fun p hp => h p (List.mem_cons_of_mem _ hp)
    have hhead := h (name, validator) (List.mem_cons_self _ _)
    rw [Validate.loop_cons]
    unfold fieldResult
    cases hd : data.get? name with
    | none => exact ih _ _ hrest
    | some x =>
      have hx := hhead x hd
      dsimp only at hx ⊢
      cases hv : validator x with
      | none => simp [hv] at hx
      | some r =>
        obtain ⟨y, errs⟩ := r
        dsimp only
        by_cases he : errs = none
        · simp only [he, ne_eq, not_true_eq_false, if_false]; exact ih _ _ hrest
        · simp only [ne_eq, he, not_false_eq_true, if_true]; exact ih _ _ hrest

theorem getEntries_mem {α : Type} (k : String) (a : α) (l : List (String × α))
    (h : getEntries k l = some a) : (k, a) ∈ l := by
  induction l with
  | nil => simp [getEntries] at h
  | cons p rest ih =>
    by_cases hp : p.1 = k
    · simp only [getEntries, if_pos hp, Option.some.injEq] at h
      subst hp; subst h
      exact List.mem_cons_self _ _
    · simp only [getEntries, if_neg hp] at h
      exact List.mem_cons_of_mem _ (ih h)

theorem mem_getEntries {α : Type} (k : String) (a : α) (l : List (String × α))
    (hnd : (l.map Prod.fst).Nodup) (h : (k, a) ∈ l) : getEntries k l = some a := by
  induction l with
  | nil => simp at h
  | cons p rest ih =>
    simp only [List.map_cons, List.nodup_cons] at hnd
    rcases List.mem_cons.mp h with h1 | h1
    · subst h1; simp [getEntries]
    · have hne : ¬ p.1 = k := by
        intro e
        apply hnd.1
        rw [e]
        exact List.mem_map.mpr ⟨(k, a), h1, rfl⟩
      simp only [getEntries, if_neg hne]
      exact ih hnd.2 h1

/-- What `Validate` does, in terms of the maps at the end of its loop. -/
theorem Validate.reports_of_loop (i : Input) (input : GoMap Value) (errors : GoMap ErrSlice)
    (h : Input.Validate.loop i.data i.validators.entries GoMap.empty GoMap.empty =
      some (input, errors)) :
    i.Reports (if 0 < errors.len then Call.ValidationFailed errors
      else Call.ValidationSucceeded input) := by
  intro σ result s
  unfold Input.Validate
  rw [h]
  by_cases hl : 0 < errors.len
  · simp [hl, ValidationResult.call]
  · simp [hl, ValidationResult.call]

/-- The maps at the end of the loop, from the call that `Validate` makes. -/
theorem Validate.loop_of_reports (i : Input) (c : Call) (h : i.Reports c) :
    ∃ input errors,
      Input.Validate.loop i.data i.validators.entries GoMap.empty GoMap.empty =
        some (input, errors) ∧
      c = (if 0 < errors.len then Call.ValidationFailed errors
        else Call.ValidationSucceeded input) := by
  have h1 := h (List Call) recorder []
  unfold Input.Validate at h1
  cases hl : Input.Validate.loop i.data i.validators.entries GoMap.empty GoMap.empty with
  | none => simp [hl] at h1
  | some r =>
    obtain ⟨input, errors⟩ := r
    refine ⟨input, errors, rfl, ?_⟩
    rw [hl] at h1
    by_cases hp : 0 < errors.len
    · simp only [gt_iff_lt, hp, if_true, Option.some.injEq] at h1 ⊢
      cases c with
      | ValidationFailed e => simpa [recorder, ValidationResult.call] using h1.symm
      | ValidationSucceeded r => simp [recorder, ValidationResult.call] at h1
    · simp only [gt_iff_lt, hp, if_false, Option.some.injEq] at h1 ⊢
      cases c with
      | ValidationFailed e => simp [recorder, ValidationResult.call] at h1
      | ValidationSucceeded r => simpa [recorder, ValidationResult.call] using h1.symm


theorem fieldResult_fails_iff (data : GoMap Value) (n : String) (v : Validator) (e : ErrSlice) :
    fieldResult data n v = .fails e ↔
      (data.get? n = none ∧ e = some [⟨"missing " ++ n⟩]) ∨
      ∃ x y l, data.get? n = some x ∧ v x = some (y, some l) ∧ e = some l := by
  unfold fieldResult
  cases data.get? n with
  | none =>
    dsimp only
    constructor
    · intro h; injection h with h; exact Or.inl ⟨rfl, h.symm⟩
    · rintro (⟨_, h⟩ | ⟨x, y, l, h, _⟩)
      · rw [h]
      · simp at h
  | some x =>
    dsimp only
    cases hv : v x with
    | none => simp [hv]
    | some r =>
      obtain ⟨y, errs⟩ := r
      dsimp only
      cases errs with
      | none => simp [hv]
      | some l =>
        simp only [ne_eq, reduceCtorEq, not_false_eq_true, if_true, FieldResult.fails.injEq,
          false_and, Option.some.injEq, false_or]
        constructor
        · intro h; exact ⟨x, y, l, rfl, hv, h.symm⟩
        · rintro ⟨x', y', l', hx, hv', he⟩
          subst hx
          rw [hv] at hv'
          simp only [Option.some.injEq, Prod.mk.injEq] at hv'
          rw [he, hv'.2]

theorem fieldResult_passes_iff (data : GoMap Value) (n : String) (v : Validator) (y : Value) :
    fieldResult data n v = .passes y ↔
      ∃ x, data.get? n = some x ∧ v x = some (y, none) := by
  unfold fieldResult
  cases data.get? n with
  | none => simp
  | some x =>
    dsimp only
    cases hv : v x with
    | none => simp [hv]
    | some r =>
      obtain ⟨y', errs⟩ := r
      dsimp only
      cases errs with
      | none => simp [hv]
      | some l => simp [hv]

/-- The maps at the end of the loop of `Validate`, started on empty maps. -/
theorem Validate.field_spec (i : Input) (input : GoMap Value) (errors : GoMap ErrSlice)
    (h : Input.Validate.loop i.data i.validators.entries GoMap.empty GoMap.empty =
      some (input, errors)) (n : String) :
    match i.validators.get? n with
    | none => input.get? n = none ∧ errors.get? n = none
    | some v =>
      match fieldResult i.data n v with
      | .panics => False
      | .fails errs => errors.get? n = some errs ∧ input.get? n = none
      | .passes value => input.get? n = some value ∧ errors.get? n = none := by
  have := Validate.loop_spec i.data i.validators.entries _ _ _ _ i.validators.nodup h n
  simpa only [GoMap.get?_empty] using this

theorem Validate.errors_get? (i : Input) (input : GoMap Value) (errors : GoMap ErrSlice)
    (h : Input.Validate.loop i.data i.validators.entries GoMap.empty GoMap.empty =
      some (input, errors)) (n : String) (e : ErrSlice) :
    errors.get? n = some e ↔
      ∃ v, i.validators.get? n = some v ∧ fieldResult i.data n v = .fails e := by
  have := Validate.field_spec i input errors h n
  cases hv : i.validators.get? n with
  | none => rw [hv] at this; simp [this.2]
  | some v =>
    rw [hv] at this
    dsimp only at this
    cases hf : fieldResult i.data n v with
    | panics => rw [hf] at this; exact this.elim
    | fails errs => rw [hf] at this; simp [this.1, hf]
    | passes value => rw [hf] at this; simp [this.2, hf]

theorem Validate.input_get? (i : Input) (input : GoMap Value) (errors : GoMap ErrSlice)
    (h : Input.Validate.loop i.data i.validators.entries GoMap.empty GoMap.empty =
      some (input, errors)) (n : String) (y : Value) :
    input.get? n = some y ↔
      ∃ v, i.validators.get? n = some v ∧ fieldResult i.data n v = .passes y := by
  have := Validate.field_spec i input errors h n
  cases hv : i.validators.get? n with
  | none => rw [hv] at this; simp [this.1]
  | some v =>
    rw [hv] at this
    dsimp only at this
    cases hf : fieldResult i.data n v with
    | panics => rw [hf] at this; exact this.elim
    | fails errs => rw [hf] at this; simp [this.2, hf]
    | passes value => rw [hf] at this; simp [this.1, hf]

theorem Validate.no_panic (i : Input) (input : GoMap Value) (errors : GoMap ErrSlice)
    (h : Input.Validate.loop i.data i.validators.entries GoMap.empty GoMap.empty =
      some (input, errors)) (n : String) (v : Validator) (hv : i.validators.get? n = some v) :
    fieldResult i.data n v ≠ .panics := by
  have := Validate.field_spec i input errors h n
  rw [hv] at this
  dsimp only at this
  intro hf
  rw [hf] at this
  exact this

theorem Validate.loop_of_returns (i : Input) (hret : i.Returns) :
    ∃ input errors,
      Input.Validate.loop i.data i.validators.entries GoMap.empty GoMap.empty =
        some (input, errors) := by
  have := Validate.loop_returns i.data i.validators.entries GoMap.empty GoMap.empty
    (fun p hp x hx => hret p.1 p.2 x (mem_getEntries p.1 p.2 _ i.validators.nodup hp) hx)
  obtain ⟨⟨input, errors⟩, h⟩ := this
  exact ⟨input, errors, h⟩

theorem Reports.unique (i : Input) (c c' : Call) (h : i.Reports c) (h' : i.Reports c') :
    c' = c := by
  have h1 := h (List Call) recorder []
  have h2 := h' (List Call) recorder []
  rw [h1] at h2
  cases c <;> cases c' <;> simp [recorder, ValidationResult.call] at h2 <;> simp [h2]


theorem fieldResult_absent (data : GoMap Value) (n : String) (v : Validator)
    (habs : data.get? n = none) :
    fieldResult data n v = .fails (some [⟨"missing " ++ n⟩]) := by
  unfold fieldResult
  rw [habs]

theorem Validate.loop_setEntries_absent (data : GoMap Value) (n : String) (v' : Validator)
    (habs : data.get? n = none) :
    ∀ (l : List (String × Validator)) (input : GoMap Value) (errors : GoMap ErrSlice),
      n ∈ l.map Prod.fst →
      Input.Validate.loop data (setEntries n v' l) input errors =
        Input.Validate.loop data l input errors := by
  intro l
  induction l with
  | nil => intro _ _ h; simp at h
  | cons p rest ih =>
    obtain ⟨name, validator⟩ := p
    intro input errors hmem
    by_cases hn : name = n
    · subst hn
      simp only [setEntries, if_true]
      rw [Validate.loop_cons, Validate.loop_cons, fieldResult_absent _ _ _ habs,
        fieldResult_absent _ _ _ habs]
    · have hmem' : n ∈ rest.map Prod.fst := by
        simp only [List.map_cons, List.mem_cons] at hmem
        rcases hmem with h | h
        · exact absurd h.symm hn
        · exact h
      simp only [setEntries, if_neg hn]
      rw [Validate.loop_cons, Validate.loop_cons]
      cases fieldResult data name validator with
      | panics => rfl
      | fails errs => exact ih _ _ hmem'
      | passes value => exact ih _ _ hmem'

theorem Validate.failed_of_loop (i : Input) (input : GoMap Value) (errors : GoMap ErrSlice)
    (h : Input.Validate.loop i.data i.validators.entries GoMap.empty GoMap.empty =
      some (input, errors)) (hpos : 0 < errors.len) :
    i.Reports (.ValidationFailed errors) := by
  have := Validate.reports_of_loop i input errors h
  rwa [if_pos hpos] at this

theorem Validate.succeeded_of_loop (i : Input) (input : GoMap Value) (errors : GoMap ErrSlice)
    (h : Input.Validate.loop i.data i.validators.entries GoMap.empty GoMap.empty =
      some (input, errors)) (hzero : ¬ 0 < errors.len) :
    i.Reports (.ValidationSucceeded input) := by
  have := Validate.reports_of_loop i input errors h
  rwa [if_neg hzero] at this

theorem mainInput_reports :
    mainInput.Reports (.ValidationSucceeded (GoMap.ofList [("customerName", .str "John Doe"),
      ("customerEmail", .str "john@gmail.com"), ("fiscalNumber", .str "1234567890")])) :=
  Validate.succeeded_of_loop mainInput _ GoMap.empty rfl (by decide)

theorem noFiscalInput_reports :
    noFiscalInput.Reports (.ValidationFailed
      (GoMap.ofList [("fiscalNumber", some [⟨"missing fiscalNumber"⟩])])) :=
  Validate.failed_of_loop noFiscalInput
    (GoMap.ofList [("customerName", .str "John Doe"), ("customerEmail", .str "john@gmail.com")])
    _ rfl (by decide)

theorem emptyErrsInput_reports :
    emptyErrsInput.Reports (.ValidationFailed (GoMap.ofList [("a", some [])])) :=
  Validate.failed_of_loop emptyErrsInput GoMap.empty _ rfl (by decide)


theorem Validate.returns_of_loop (i : Input) (input : GoMap Value) (errors : GoMap ErrSlice)
    (h : Input.Validate.loop i.data i.validators.entries GoMap.empty GoMap.empty =
      some (input, errors)) : i.Returns := by
  intro n v x hv hx
  have := Validate.no_panic i input errors h n v hv
  unfold fieldResult at this
  rw [hx] at this
  dsimp only at this
  cases hvx : v x with
  | none => rw [hvx] at this; exact absurd rfl this
  | some r => rfl

theorem mainInput_loop :
    Input.Validate.loop mainInput.data mainInput.validators.entries GoMap.empty GoMap.empty =
      some (GoMap.ofList [("customerName", .str "John Doe"),
        ("customerEmail", .str "john@gmail.com"), ("fiscalNumber", .str "1234567890")],
        GoMap.empty) := rfl

theorem noFiscalInput_loop :
    Input.Validate.loop noFiscalInput.data noFiscalInput.validators.entries GoMap.empty
        GoMap.empty =
      some (GoMap.ofList [("customerName", .str "John Doe"),
        ("customerEmail", .str "john@gmail.com")],
        GoMap.ofList [("fiscalNumber", some [⟨"missing fiscalNumber"⟩])]) := rfl

/-! ## The claims on `Validate` -/

/-- C1, as stated, fails: the claim is that `Validate` reports Failure only
when a registered field is missing or its validator returns one or more
errors.  With the field `a` present in the record and a validator registered
for it that returns a non-nil slice holding no error, `Validate` reports
Failure, with an empty error list for `a`, although no registered field is
missing and no validator returns an error. -/
theorem Validate_fails_without_any_error :
    emptyErrsInput.Reports (.ValidationFailed (GoMap.ofList [("a", some [])])) ∧
    ¬ ∃ (n : String) (v : Validator), emptyErrsInput.validators.get? n = some v ∧
        (emptyErrsInput.data.get? n = none ∨
          ∃ x y e, emptyErrsInput.data.get? n = some x ∧ v x = some (y, e) ∧
            1 ≤ e.toList.length) := by
  refine ⟨emptyErrsInput_reports, ?_⟩
  rintro ⟨n, v, hv, h⟩
  have hreg : emptyErrsInput.validators.get? n = if "a" = n then some emptyErrs else none := rfl
  rw [hreg] at hv
  by_cases hn : "a" = n
  · subst hn
    simp only [if_true, Option.some.injEq] at hv
    subst hv
    have hdata : emptyErrsInput.data.get? "a" = some (.str "x") := rfl
    rcases h with h | ⟨x, y, e, _, he, hlen⟩
    · rw [hdata] at h; exact absurd h (by simp)
    · simp only [emptyErrs, Option.some.injEq, Prod.mk.injEq] at he
      rw [← he.2] at hlen
      simp [ErrSlice.toList] at hlen
  · simp [hn] at hv

/-- C1, amended: for every record, every registry of validators and every
implementation of `ValidationResult`, when no registered validator panics on
the value of its field, `Validate` makes exactly one call `c` on the
implementation; the call is `ValidationFailed` if and only if at least one
registered field is missing from the record or has a validator that returns a
non-nil error slice (with or without errors in it) on the value of the field,
and otherwise it is `ValidationSucceeded`. -/
theorem Validate_outcome (i : Input) (hret : i.Returns) :
    ∃ c : Call, i.Reports c ∧ (∀ c', i.Reports c' → c' = c) ∧
      ((∃ errors, c = .ValidationFailed errors) ↔
        ∃ (n : String) (v : Validator), i.validators.get? n = some v ∧
          (i.data.get? n = none ∨
            ∃ x y l, i.data.get? n = some x ∧ v x = some (y, some l))) ∧
      ((∃ request, c = .ValidationSucceeded request) ↔
        ¬ ∃ (n : String) (v : Validator), i.validators.get? n = some v ∧
          (i.data.get? n = none ∨
            ∃ x y l, i.data.get? n = some x ∧ v x = some (y, some l))) := by
  obtain ⟨input, errors, hloop⟩ := Validate.loop_of_returns i hret
  have hiff : 0 < errors.len ↔
      ∃ (n : String) (v : Validator), i.validators.get? n = some v ∧
        (i.data.get? n = none ∨
          ∃ x y l, i.data.get? n = some x ∧ v x = some (y, some l)) := by
    rw [GoMap.len_pos]
    constructor
    · rintro ⟨n, hn⟩
      rw [GoMap.mem_keys] at hn
      obtain ⟨e, he⟩ := Option.ne_none_iff_exists'.mp hn
      obtain ⟨v, hv, hf⟩ := (Validate.errors_get? i input errors hloop n e).mp he
      refine ⟨n, v, hv, ?_⟩
      rcases (fieldResult_fails_iff _ _ _ _).mp hf with ⟨h, _⟩ | ⟨x, y, l, hx, hvx, _⟩
      · exact Or.inl h
      · exact Or.inr ⟨x, y, l, hx, hvx⟩
    · rintro ⟨n, v, hv, h⟩
      refine ⟨n, ?_⟩
      rw [GoMap.mem_keys]
      rcases h with h | ⟨x, y, l, hx, hvx⟩
      · have := (Validate.errors_get? i input errors hloop n _).mpr
          ⟨v, hv, fieldResult_absent _ _ _ h⟩
        rw [this]; simp
      · have := (Validate.errors_get? i input errors hloop n (some l)).mpr
          ⟨v, hv, (fieldResult_fails_iff _ _ _ _).mpr (Or.inr ⟨x, y, l, hx, hvx, rfl⟩)⟩
        rw [this]; simp
  by_cases hpos : 0 < errors.len
  · have hrep := Validate.failed_of_loop i input errors hloop hpos
    refine ⟨_, hrep, fun c' h' => Reports.unique i _ c' hrep h', ?_, ?_⟩
    · exact ⟨fun _ => hiff.mp hpos, fun _ => ⟨errors, rfl⟩⟩
    · constructor
      · rintro ⟨request, h⟩; exact absurd h (by simp)
      · intro h; exact absurd (hiff.mp hpos) h
  · have hrep := Validate.succeeded_of_loop i input errors hloop hpos
    refine ⟨_, hrep, fun c' h' => Reports.unique i _ c' hrep h', ?_, ?_⟩
    · constructor
      · rintro ⟨e, h⟩; exact absurd h (by simp)
      · intro h; exact absurd (hiff.mpr h) hpos
    · exact ⟨fun _ h => hpos (hiff.mpr h), fun _ => ⟨input, rfl⟩⟩

/-- C1, amended, on the record and registrations of `main`. -/
theorem Validate_outcome_witness :
    ∃ c : Call, mainInput.Reports c ∧ (∀ c', mainInput.Reports c' → c' = c) ∧
      ((∃ errors, c = .ValidationFailed errors) ↔
        ∃ (n : String) (v : Validator), mainInput.validators.get? n = some v ∧
          (mainInput.data.get? n = none ∨
            ∃ x y l, mainInput.data.get? n = some x ∧ v x = some (y, some l))) ∧
      ((∃ request, c = .ValidationSucceeded request) ↔
        ¬ ∃ (n : String) (v : Validator), mainInput.validators.get? n = some v ∧
          (mainInput.data.get? n = none ∨
            ∃ x y l, mainInput.data.get? n = some x ∧ v x = some (y, some l))) :=
  Validate_outcome mainInput (Validate.returns_of_loop mainInput _ _ mainInput_loop)

/-- C6, as stated, fails: the claim is that the keys of the mapping reported
with Failure are the registered fields that are missing or whose validator
returned errors.  With the field `a` present in the record and a validator
registered for it that returns a non-nil slice holding no error, `Validate`
reports Failure with a mapping that has the key `a`, although `a` is not
missing and its validator returned no error. -/
theorem Validate_failure_key_without_error :
    emptyErrsInput.Reports (.ValidationFailed (GoMap.ofList [("a", some [])])) ∧
    "a" ∈ (GoMap.ofList [("a", (some [] : ErrSlice))]).keys ∧
    emptyErrsInput.validators.get? "a" = some emptyErrs ∧
    emptyErrsInput.data.get? "a" = some (.str "x") ∧
    emptyErrs (.str "x") = some (.str "x", some []) ∧
    ¬ ∃ v : Validator, emptyErrsInput.validators.get? "a" = some v ∧
        (emptyErrsInput.data.get? "a" = none ∨
          ∃ x y e, emptyErrsInput.data.get? "a" = some x ∧ v x = some (y, e) ∧
            1 ≤ e.toList.length) := by
  refine ⟨emptyErrsInput_reports, by decide, rfl, rfl, rfl, ?_⟩
  rintro ⟨v, hv, h⟩
  have hreg : emptyErrsInput.validators.get? "a" = some emptyErrs := rfl
  have hdata : emptyErrsInput.data.get? "a" = some (.str "x") := rfl
  rw [hreg] at hv
  simp only [Option.some.injEq] at hv
  subst hv
  rcases h with h | ⟨x, y, e, _, he, hlen⟩
  · rw [hdata] at h; exact absurd h (by simp)
  · simp only [emptyErrs, Option.some.injEq, Prod.mk.injEq] at he
    rw [← he.2] at hlen
    simp [ErrSlice.toList] at hlen

/-- C6, amended: whenever `Validate` reports Failure with the mapping `errors`,
the keys of `errors` are exactly the registered field names that are missing
from the record or whose validator returned a non-nil error slice (with or
without errors in it) on the value of the field; a registered field whose
validator returned a nil error slice has no entry; and the entry of a field
that is present and failed is the error slice its validator returned.  With
the three domain validators registered and a record holding a valid
`customerName` and `customerEmail` and no `fiscalNumber`, the mapping has the
single key `fiscalNumber`. -/
theorem Validate_failure_mapping (i : Input) (errors : GoMap ErrSlice)
    (h : i.Reports (.ValidationFailed errors)) :
    (∀ n : String, n ∈ errors.keys ↔
      ∃ v : Validator, i.validators.get? n = some v ∧
        (i.data.get? n = none ∨
          ∃ x y l, i.data.get? n = some x ∧ v x = some (y, some l))) ∧
    (∀ (n : String) (v : Validator) (x y : Value), i.validators.get? n = some v →
      i.data.get? n = some x → v x = some (y, none) → errors.get? n = none) ∧
    (∀ (n : String) (v : Validator) (x y : Value) (l : List GoError),
      i.validators.get? n = some v → i.data.get? n = some x → v x = some (y, some l) →
      errors.get? n = some (some l)) ∧
    (noFiscalInput.Reports (.ValidationFailed
        (GoMap.ofList [("fiscalNumber", some [⟨"missing fiscalNumber"⟩])])) ∧
      (GoMap.ofList [("fiscalNumber", some [(⟨"missing fiscalNumber"⟩ : GoError)])]).keys =
        ["fiscalNumber"]) := by
  obtain ⟨input, errors', hloop, hc⟩ := Validate.loop_of_reports i _ h
  have herr : errors' = errors := by
    by_cases hp : 0 < errors'.len
    · rw [if_pos hp] at hc; injection hc with hc; exact hc.symm
    · rw [if_neg hp] at hc; exact absurd hc (by simp)
  subst herr
  refine ⟨?_, ?_, ?_, noFiscalInput_reports, rfl⟩
  · intro n
    rw [GoMap.mem_keys]
    constructor
    · intro hn
      obtain ⟨e, he⟩ := Option.ne_none_iff_exists'.mp hn
      obtain ⟨v, hv, hf⟩ := (Validate.errors_get? i input errors' hloop n e).mp he
      refine ⟨v, hv, ?_⟩
      rcases (fieldResult_fails_iff _ _ _ _).mp hf with ⟨h, _⟩ | ⟨x, y, l, hx, hvx, _⟩
      · exact Or.inl h
      · exact Or.inr ⟨x, y, l, hx, hvx⟩
    · rintro ⟨v, hv, h⟩
      rcases h with h | ⟨x, y, l, hx, hvx⟩
      · have := (Validate.errors_get? i input errors' hloop n _).mpr
          ⟨v, hv, fieldResult_absent _ _ _ h⟩
        rw [this]; simp
      · have := (Validate.errors_get? i input errors' hloop n (some l)).mpr
          ⟨v, hv, (fieldResult_fails_iff _ _ _ _).mpr (Or.inr ⟨x, y, l, hx, hvx, rfl⟩)⟩
        rw [this]; simp
  · intro n v x y hv hx hvx
    have hpass : fieldResult i.data n v = .passes y :=
      (fieldResult_passes_iff _ _ _ _).mpr ⟨x, hx, hvx⟩
    have := Validate.field_spec i input errors' hloop n
    rw [hv] at this
    dsimp only at this
    rw [hpass] at this
    exact this.2
  · intro n v x y l hv hx hvx
    exact (Validate.errors_get? i input errors' hloop n (some l)).mpr
      ⟨v, hv, (fieldResult_fails_iff _ _ _ _).mpr (Or.inr ⟨x, y, l, hx, hvx, rfl⟩)⟩

/-- C6, amended, on the registrations of `main` and a record without
`fiscalNumber`. -/
theorem Validate_failure_mapping_witness :
    noFiscalInput.Reports (.ValidationFailed
      (GoMap.ofList [("fiscalNumber", some [⟨"missing fiscalNumber"⟩])])) ∧
    ("fiscalNumber" ∈
        (GoMap.ofList [("fiscalNumber", some [(⟨"missing fiscalNumber"⟩ : GoError)])]).keys ↔
      ∃ v : Validator, noFiscalInput.validators.get? "fiscalNumber" = some v ∧
        (noFiscalInput.data.get? "fiscalNumber" = none ∨
          ∃ x y l, noFiscalInput.data.get? "fiscalNumber" = some x ∧
            v x = some (y, some l))) ∧
    ("customerName" ∈
        (GoMap.ofList [("fiscalNumber", some [(⟨"missing fiscalNumber"⟩ : GoError)])]).keys ↔
      ∃ v : Validator, noFiscalInput.validators.get? "customerName" = some v ∧
        (noFiscalInput.data.get? "customerName" = none ∨
          ∃ x y l, noFiscalInput.data.get? "customerName" = some x ∧
            v x = some (y, some l))) :=
  ⟨noFiscalInput_reports,
    (Validate_failure_mapping noFiscalInput _ noFiscalInput_reports).1 "fiscalNumber",
    (Validate_failure_mapping noFiscalInput _ noFiscalInput_reports).1 "customerName"⟩

/-- C7: for every field name `n` that is registered and absent from the
record, whatever validator is registered for `n`, `Validate` reports Failure
(no validator panicking on the fields that are present) and the entry for `n`
is a list of exactly one error, with message "missing " followed by `n`; the
validator registered for `n` is not consulted: the report is the same with
any other validator `v'` registered for `n`, one that panics included. -/
theorem Validate_missing_field (i : Input) (n : String) (v : Validator)
    (hreg : i.validators.get? n = some v) (habs : i.data.get? n = none)
    (hret : i.Returns) :
    ∃ errors : GoMap ErrSlice, i.Reports (.ValidationFailed errors) ∧
      errors.get? n = some (some [⟨"missing " ++ n⟩]) ∧
      ∀ v' : Validator, (i.ValidateWith n v').Reports (.ValidationFailed errors) := by
  obtain ⟨input, errors, hloop⟩ := Validate.loop_of_returns i hret
  have hget : errors.get? n = some (some [⟨"missing " ++ n⟩]) :=
    (Validate.errors_get? i input errors hloop n _).mpr ⟨v, hreg, fieldResult_absent _ _ _ habs⟩
  have hkey : n ∈ errors.keys := by rw [GoMap.mem_keys, hget]; simp
  have hpos : 0 < errors.len := (GoMap.len_pos errors).mpr ⟨n, hkey⟩
  refine ⟨errors, Validate.failed_of_loop i input errors hloop hpos, hget, ?_⟩
  intro v'
  have hmem : n ∈ i.validators.entries.map Prod.fst := by
    have : n ∈ i.validators.keys := by rw [GoMap.mem_keys, hreg]; simp
    exact this
  have hloop' : Input.Validate.loop (i.ValidateWith n v').data
      (i.ValidateWith n v').validators.entries GoMap.empty GoMap.empty =
        some (input, errors) := by
    have := Validate.loop_setEntries_absent i.data n v' habs i.validators.entries
      GoMap.empty GoMap.empty hmem
    rw [← hloop, ← this]
    rfl
  exact Validate.failed_of_loop _ input errors hloop' hpos

/-- C7 on the registrations of `main` and a record without `fiscalNumber`. -/
theorem Validate_missing_field_witness :
    ∃ errors : GoMap ErrSlice, noFiscalInput.Reports (.ValidationFailed errors) ∧
      errors.get? "fiscalNumber" = some (some [⟨"missing " ++ "fiscalNumber"⟩]) ∧
      ∀ v' : Validator,
        (noFiscalInput.ValidateWith "fiscalNumber" v').Reports (.ValidationFailed errors) :=
  Validate_missing_field noFiscalInput "fiscalNumber" (FiscalNumberValidator goRegexp) rfl rfl
    (Validate.returns_of_loop noFiscalInput _ _ noFiscalInput_loop)

/-- C8: whenever `Validate` reports Success with the mapping `request`, the
keys of `request` are exactly the registered field names, each mapped to the
value that its validator returned for the value of that field in the record,
and a field of the record with no registered validator is not in `request`;
with an empty registry `Validate` reports Success with an empty mapping for
every record; and the record and registrations of `main` give Success with
the mapping equal to the record. -/
theorem Validate_success_mapping (i : Input) (request : GoMap Value)
    (h : i.Reports (.ValidationSucceeded request)) :
    (∀ n : String, n ∈ request.keys ↔ n ∈ i.validators.keys) ∧
    (∀ (n : String) (v : Validator), i.validators.get? n = some v →
      ∃ x y, i.data.get? n = some x ∧ v x = some (y, none) ∧ request.get? n = some y) ∧
    (∀ n : String, i.validators.get? n = none → request.get? n = none) ∧
    (∀ data : GoMap Value, (NewInput data).Reports (.ValidationSucceeded GoMap.empty)) ∧
    mainInput.Reports (.ValidationSucceeded (GoMap.ofList [("customerName", .str "John Doe"),
      ("customerEmail", .str "john@gmail.com"), ("fiscalNumber", .str "1234567890")])) := by
  obtain ⟨input, errors, hloop, hc⟩ := Validate.loop_of_reports i _ h
  have hzero : ¬ 0 < errors.len := by
    intro hp; rw [if_pos hp] at hc; exact absurd hc (by simp)
  have hreq : input = request := by
    rw [if_neg hzero] at hc; injection hc with hc; exact hc.symm
  subst hreq
  have hnone : ∀ n, errors.get? n = none := by
    intro n
    by_contra hn
    exact hzero ((GoMap.len_pos errors).mpr ⟨n, (GoMap.mem_keys errors n).mpr hn⟩)
  have hfield : ∀ (n : String) (v : Validator), i.validators.get? n = some v →
      ∃ x y, i.data.get? n = some x ∧ v x = some (y, none) ∧ input.get? n = some y := by
    intro n v hv
    have hspec := Validate.field_spec i input errors hloop n
    rw [hv] at hspec
    dsimp only at hspec
    cases hf : fieldResult i.data n v with
    | panics => rw [hf] at hspec; exact hspec.elim
    | fails e =>
      rw [hf] at hspec
      have := hnone n
      rw [hspec.1] at this
      exact absurd this (by simp)
    | passes y =>
      rw [hf] at hspec
      obtain ⟨x, hx, hvx⟩ := (fieldResult_passes_iff _ _ _ _).mp hf
      exact ⟨x, y, hx, hvx, hspec.1⟩
  have hunreg : ∀ n : String, i.validators.get? n = none → input.get? n = none := by
    intro n hn
    have hspec := Validate.field_spec i input errors hloop n
    rw [hn] at hspec
    exact hspec.1
  refine ⟨?_, hfield, hunreg, ?_, mainInput_reports⟩
  · intro n
    rw [GoMap.mem_keys, GoMap.mem_keys]
    constructor
    · intro hn hreg
      exact hn (hunreg n hreg)
    · intro hn
      obtain ⟨v, hv⟩ := Option.ne_none_iff_exists'.mp hn
      obtain ⟨x, y, _, _, hy⟩ := hfield n v hv
      rw [hy]; simp
  · intro data
    exact Validate.succeeded_of_loop (NewInput data) GoMap.empty GoMap.empty rfl (by decide)

/-- C8 on the record and registrations of `main`. -/
theorem Validate_success_mapping_witness :
    mainInput.Reports (.ValidationSucceeded (GoMap.ofList [("customerName", .str "John Doe"),
      ("customerEmail", .str "john@gmail.com"), ("fiscalNumber", .str "1234567890")])) ∧
    ∃ x y, mainInput.data.get? "customerEmail" = some x ∧
      EmailValidator goRegexp x = some (y, none) ∧
      (GoMap.ofList [("customerName", Value.str "John Doe"),
        ("customerEmail", .str "john@gmail.com"),
        ("fiscalNumber", .str "1234567890")]).get? "customerEmail" = some y :=
  ⟨mainInput_reports,
    (Validate_success_mapping mainInput _ mainInput_reports).2.1 "customerEmail"
      (EmailValidator goRegexp) rfl⟩

/-! ## The claims on `Max`, `Min` and `Match` -/

/-- C11: for every string `s` and every integer `max`, with the length of `s`
counted in UTF-8 bytes as Go `len` does: `Max(max)` returns `s` unchanged and
a nil error slice if and only if the length is at most `max`; otherwise it
returns the nil value and exactly one error, whose message is `s` followed by
" must have at most ", the decimal rendering of `max` and " characters". -/
theorem Max_on_string (s : String) (max : Int) :
    (Max max (.str s) = some (.str s, none) ↔ (s.utf8ByteSize : Int) ≤ max) ∧
    (¬ (s.utf8ByteSize : Int) ≤ max →
      Max max (.str s) =
        some (.nil, some [⟨s ++ " must have at most " ++ toString max ++ " characters"⟩])) := by
  by_cases h : (s.utf8ByteSize : Int) > max
  · have hn : ¬ (s.utf8ByteSize : Int) ≤ max := not_le.mpr h
    refine ⟨⟨fun he => ?_, fun hle => absurd hle hn⟩, fun _ => ?_⟩
    · simp [Max, if_pos h] at he
    · simp only [Max, if_pos h]
  · have hle : (s.utf8ByteSize : Int) ≤ max := not_lt.mp h
    refine ⟨⟨fun _ => hle, fun _ => ?_⟩, fun hn => absurd hle hn⟩
    simp only [Max, if_neg h]

/-- C11 on a string longer than the bound, with the bound rendered in decimal. -/
theorem Max_on_string_witness :
    Max 3 (.str "John") =
      some (.nil, some [⟨"John" ++ " must have at most " ++ toString (3 : Int) ++ " characters"⟩]) ∧
    (⟨"John" ++ " must have at most " ++ toString (3 : Int) ++ " characters"⟩ : GoError) =
      ⟨"John must have at most 3 characters"⟩ ∧
    (Max 4 (.str "John") = some (.str "John", none) ↔ (("John".utf8ByteSize : Nat) : Int) ≤ 4) :=
  ⟨(Max_on_string "John" 3).2 (by decide), by decide, (Max_on_string "John" 4).1⟩

/-- C12: the claim is that the error of `Min(min)` on a string that is too
short reads "... must have at least ... characters".  On "Jo" and the bound 3
the message that the code builds reads "Jo must have at lease 3 characters". -/
theorem Min_message_reads_at_lease :
    Min 3 (.str "Jo") = some (.nil, some [⟨"Jo must have at lease 3 characters"⟩]) ∧
    (⟨"Jo must have at lease 3 characters"⟩ : GoError) ≠
      ⟨"Jo" ++ " must have at least " ++ toString (3 : Int) ++ " characters"⟩ := by
  refine ⟨by decide, by decide⟩

/-- C13: the claim is that `Min(min)` fails on a string of fewer than `min`
characters.  The string "Jé" has two characters and three UTF-8 bytes, and
`Min(3)` accepts it: the code compares the number of bytes with the bound. -/
theorem Min_counts_bytes :
    "Jé".length = 2 ∧ "Jé".utf8ByteSize = 3 ∧
    Min 3 (.str "Jé") = some (.str "Jé", none) := by
  refine ⟨by decide, by decide, by decide⟩

/-- C14: for every pattern `p` that compiles and every string `s`: when `s`
matches `p`, `Match(p)` returns `s` unchanged and a nil error slice; when `s`
does not match, it returns the nil value and exactly one error, with message
`s` followed by " does not match " and `p`; and `Match(p)` applied to the
value returned by a successful `Match(p)` on `s` returns `s` and a nil error
slice again. -/
theorem Match_on_string (re : Regexp) (p : String) (MatchString : String → Bool)
    (hp : re.MustCompile p = some MatchString) (s : String) :
    (MatchString s = true → Match re p (.str s) = some (.str s, none)) ∧
    (MatchString s = false →
      Match re p (.str s) = some (.nil, some [⟨s ++ " does not match " ++ p⟩])) ∧
    (∀ y : Value, Match re p (.str s) = some (y, none) →
      Match re p y = some (.str s, none)) := by
  have hm : (MatchString s = true → Match re p (.str s) = some (.str s, none)) := by
    intro h; simp [Match, hp, h]
  refine ⟨hm, ?_, ?_⟩
  · intro h; simp [Match, hp, h]
  · intro y hy
    cases h : MatchString s with
    | true =>
      have := hm h
      rw [this] at hy
      simp only [Option.some.injEq, Prod.mk.injEq, and_true] at hy
      rw [← hy]; exact this
    | false =>
      simp [Match, hp, h] at hy

/-- C14 on the pattern of `FiscalNumberValidator`, with a matching and a
non-matching string. -/
theorem Match_on_string_witness :
    Match goRegexp "^[0-9]{10}$" (.str "1234567890") = some (.str "1234567890", none) ∧
    Match goRegexp "^[0-9]{10}$" (.str "123") =
      some (.nil, some [⟨"123" ++ " does not match " ++ "^[0-9]{10}$"⟩]) :=
  ⟨(Match_on_string goRegexp "^[0-9]{10}$" _ rfl "1234567890").1 (by decide),
   (Match_on_string goRegexp "^[0-9]{10}$" _ rfl "123").2.1 (by decide)⟩

/-! ## The claims on registration and on the compilation of patterns -/

theorem setEntries_setEntries {α : Type} (k : String) (a b : α) (l : List (String × α)) :
    setEntries k b (setEntries k a l) = setEntries k b l := by
  induction l with
  | nil => simp [setEntries]
  | cons p rest ih =>
    by_cases h : p.1 = k
    · simp [setEntries, h]
    · simp [setEntries, h, ih]

theorem GoMap.eq_of_entries {α : Type} (m m' : GoMap α) (h : m.entries = m'.entries) :
    m = m' := by
  cases m; cases m'
  simp only at h
  subst h
  rfl

/-- C18: after `ValidateWith(n, v1)` followed by `ValidateWith(n, v2)` the
`Input` is the one obtained by `ValidateWith(n, v2)` alone, so `Validate` does
the same on every implementation of `ValidationResult`; after
`ValidateWith(n, v2)` the validator registered for `n` is `v2`, the record is
unchanged and so is the validator registered under every other name. -/
theorem ValidateWith_last_wins (i : Input) (n : String) (v1 v2 : Validator) :
    (i.ValidateWith n v1).ValidateWith n v2 = i.ValidateWith n v2 ∧
    (∀ (σ : Type) (result : ValidationResult σ) (s : σ),
      ((i.ValidateWith n v1).ValidateWith n v2).Validate result s =
        (i.ValidateWith n v2).Validate result s) ∧
    (i.ValidateWith n v2).validators.get? n = some v2 ∧
    (i.ValidateWith n v2).data = i.data ∧
    (∀ m : String, m ≠ n →
      (i.ValidateWith n v2).validators.get? m = i.validators.get? m) := by
  have heq : (i.ValidateWith n v1).ValidateWith n v2 = i.ValidateWith n v2 := by
    unfold Input.ValidateWith
    congr 1
    exact GoMap.eq_of_entries _ _ (setEntries_setEntries n v1 v2 i.validators.entries)
  refine ⟨heq, ?_, ?_, rfl, ?_⟩
  · intro σ result s; rw [heq]
  · show (i.validators.set n v2).get? n = some v2
    rw [GoMap.get?_set, if_pos rfl]
  · intro m hm
    show (i.validators.set n v2).get? m = i.validators.get? m
    rw [GoMap.get?_set, if_neg (Ne.symm hm)]

/-- C18 on the registrations of `main`, with the validator of `customerName`
registered over another one. -/
theorem ValidateWith_last_wins_witness :
    ((mainInput.ValidateWith "customerName" acceptAll).ValidateWith "customerName"
        NameValidator).Validate recorder [] =
      (mainInput.ValidateWith "customerName" NameValidator).Validate recorder [] ∧
    (mainInput.ValidateWith "customerName" NameValidator).validators.get? "fiscalNumber" =
      mainInput.validators.get? "fiscalNumber" :=
  ⟨(ValidateWith_last_wins mainInput "customerName" acceptAll NameValidator).2.1 _ recorder [],
   (ValidateWith_last_wins mainInput "customerName" acceptAll NameValidator).2.2.2.2
     "fiscalNumber" (by decide)⟩

/-- C19, as stated, fails: the claim is that `Match(p)` with a malformed
pattern returns an ordinary result on no value.  The pattern "[" does not
compile, and `Match("[")` applied to the integer 42 returns the nil value and
the error "42 is not a string". -/
theorem Match_malformed_on_non_string :
    goRegexp.MustCompile "[" = none ∧
    Match goRegexp "[" (.int 42) = some (.nil, some [⟨"42 is not a string"⟩]) := by
  refine ⟨by rfl, by decide⟩

/-- C19, amended: for every pattern `p` that does not compile, `Match(p)` is a
validator (its construction does nothing with the pattern); applied to any
string it fails fatally, in `regexp.MustCompile`, and returns no result; applied
to a value that is not a string it returns the ordinary result of the nil value
and the one error "... is not a string". -/
theorem Match_malformed_pattern (re : Regexp) (p : String) (hp : re.MustCompile p = none) :
    (∀ s : String, Match re p (.str s) = none) ∧
    (∀ v : Value, v.isString = false →
      Match re p v = some (.nil, some [⟨v.fmtV ++ " is not a string"⟩])) := by
  constructor
  · intro s; simp [Match, hp]
  · intro v hv
    cases v with
    | str s => simp [Value.isString] at hv
    | nil => rfl
    | int k => rfl
    | bool b => rfl
    | other r => rfl

/-- C19, amended, on the pattern "[", a string and the nil value. -/
theorem Match_malformed_pattern_witness :
    Match goRegexp "[" (.str "abc") = none ∧
    Match goRegexp "[" .nil = some (.nil, some [⟨"<nil>" ++ " is not a string"⟩]) :=
  ⟨(Match_malformed_pattern goRegexp "[" rfl).1 "abc",
   (Match_malformed_pattern goRegexp "[" rfl).2 .nil rfl⟩

/-! ## `All` and its last step -/

theorem All.loop_singleton (last : Validator) (x : Value) (e0 : ErrSlice) :
    All.loop [last] x e0 = All.loop [last] x none := by
  simp only [All.loop]

theorem All.loop_of_runs {c : List Validator} {x z : Value} (h : ChainRuns c x z)
    (last : Validator) :
    ∀ e0 : ErrSlice, All.loop (c ++ [last]) x e0 = All.loop [last] z none := by
  induction h with
  | nil x => intro e0; exact All.loop_singleton last x e0
  | @cons validator rest x y z errs hv _ ih =>
    intro e0
    rw [List.cons_append]
    rw [All.loop, hv]
    dsimp only
    by_cases he : errs = none
    · rw [if_neg (not_not.mpr he)]; exact ih _
    · rw [if_pos he]; exact ih _

theorem All.runs_of_loop :
    ∀ (c : List Validator) (last : Validator) (x : Value) (e0 : ErrSlice)
      (r : Value × ErrSlice), All.loop (c ++ [last]) x e0 = some r →
      ∃ x' y e, ChainRuns c x x' ∧ last x' = some (y, e) := by
  intro c
  induction c with
  | nil =>
    intro last x e0 r h
    cases hl : last x with
    | none => simp [All.loop, hl] at h
    | some p => exact ⟨x, p.1, p.2, ChainRuns.nil x, hl⟩
  | cons v rest ih =>
    intro last x e0 r h
    rw [List.cons_append, All.loop] at h
    cases hv : v x with
    | none => rw [hv] at h; simp at h
    | some p =>
      obtain ⟨y, errs⟩ := p
      rw [hv] at h
      dsimp only at h
      by_cases he : errs = none
      · rw [if_neg (not_not.mpr he)] at h
        obtain ⟨x', y', e, hr, hl⟩ := ih last y _ r h
        exact ⟨x', y', e, ChainRuns.cons hv hr, hl⟩
      · rw [if_pos he] at h
        obtain ⟨x', y', e, hr, hl⟩ := ih last y _ r h
        exact ⟨x', y', e, ChainRuns.cons hv hr, hl⟩

theorem All_snoc_nil {init : List Validator} {last : Validator} {x x' y : Value}
    (hinit : ChainRuns init x x') (hlast : last x' = some (y, none)) :
    All (init ++ [last]) x = some (y, none) := by
  unfold All
  rw [All.loop_of_runs hinit]
  simp [All.loop, hlast]

theorem All_snoc_some {init : List Validator} {last : Validator} {x x' y : Value}
    {l : List GoError} (hinit : ChainRuns init x x') (hlast : last x' = some (y, some l)) :
    All (init ++ [last]) x = some (.nil, some (l ++ l)) := by
  unfold All
  rw [All.loop_of_runs hinit]
  simp [All.loop, hlast, ErrSlice.append, ErrSlice.toList]

theorem IsPrimitive.result {re : Regexp} {v : Validator} (hv : IsPrimitive re v)
    (x y : Value) (l : List GoError) (h : v x = some (y, some l)) : ∃ e, l = [e] := by
  cases hv with
  | string =>
    cases x <;> simp [String'] at h <;> exact ⟨_, h.2.symm⟩
  | min n =>
    cases x with
    | str s =>
      by_cases hs : (s.utf8ByteSize : Int) < n
      · simp only [Min, if_pos hs, Option.some.injEq, Prod.mk.injEq, List.cons.injEq] at h
        exact ⟨_, h.2.symm⟩
      · simp [Min, if_neg hs] at h
    | nil => simp [Min] at h; exact ⟨_, h.2.symm⟩
    | int k => simp [Min] at h; exact ⟨_, h.2.symm⟩
    | bool b => simp [Min] at h; exact ⟨_, h.2.symm⟩
    | other r => simp [Min] at h; exact ⟨_, h.2.symm⟩
  | max n =>
    cases x with
    | str s =>
      by_cases hs : (s.utf8ByteSize : Int) > n
      · simp only [Max, if_pos hs, Option.some.injEq, Prod.mk.injEq, List.cons.injEq] at h
        exact ⟨_, h.2.symm⟩
      · simp [Max, if_neg hs] at h
    | nil => simp [Max] at h; exact ⟨_, h.2.symm⟩
    | int k => simp [Max] at h; exact ⟨_, h.2.symm⟩
    | bool b => simp [Max] at h; exact ⟨_, h.2.symm⟩
    | other r => simp [Max] at h; exact ⟨_, h.2.symm⟩
  | regexp p =>
    cases x with
    | str s =>
      cases hc : re.MustCompile p with
      | none => simp [Match, hc] at h
      | some m =>
        cases hm : m s with
        | true => simp [Match, hc, hm] at h
        | false => simp [Match, hc, hm] at h; exact ⟨_, h.2.symm⟩
    | nil => simp [Match] at h; exact ⟨_, h.2.symm⟩
    | int k => simp [Match] at h; exact ⟨_, h.2.symm⟩
    | bool b => simp [Match] at h; exact ⟨_, h.2.symm⟩
    | other r => simp [Match] at h; exact ⟨_, h.2.symm⟩

/-- C20, as stated, fails: the claim is that `All` returns the value of its
last step and no errors whenever the error list `e` of the last step is empty.
On the chain made of one validator that returns its argument and a non-nil
slice holding no error, applied to the string "x", the last step returns
"x" and an empty list, and `All` returns the nil value, not "x". -/
theorem All_on_empty_error_slice :
    emptyErrs (.str "x") = some (.str "x", some []) ∧
    ErrSlice.toList (some []) = [] ∧
    All ([] ++ [emptyErrs]) (.str "x") = some (.nil, some []) ∧
    ¬ ∃ e' : ErrSlice, All ([] ++ [emptyErrs]) (.str "x") = some (.str "x", e') := by
  refine ⟨rfl, rfl, by decide, ?_⟩
  rintro ⟨e', h⟩
  have h2 : All ([] ++ [emptyErrs]) (.str "x") = some (.nil, some []) := by decide
  rw [h2] at h
  simp at h

/-- C20, amended: for every chain `init ++ [last]` and every input `x`, let
`x'` be the value obtained by running the steps of `init` in order, each on
the value returned by the step before it, whatever errors they return, and let
`last` return the value `y` and the error slice `e` on `x'`; then `All`
returns `y` and a nil slice when `e` is nil, and the nil value and `e`
appended to itself when `e` is not nil.  Consequently, for every non-empty
chain of validators built by `String`, `Min`, `Max` and `Match`, an `All` that
returns errors returns exactly two, equal to each other and to the single
error of the last step. -/
theorem All_depends_on_last_step (init : List Validator) (last : Validator) (x x' y : Value)
    (e : ErrSlice) (hinit : ChainRuns init x x') (hlast : last x' = some (y, e)) :
    (e = none → All (init ++ [last]) x = some (y, none)) ∧
    (∀ l : List GoError, e = some l → All (init ++ [last]) x = some (.nil, some (l ++ l))) ∧
    (∀ (re : Regexp) (chain : List Validator) (x0 y0 : Value) (errs : List GoError),
      chain ≠ [] → (∀ v ∈ chain, IsPrimitive re v) →
      All chain x0 = some (y0, some errs) →
      ∃ (e1 : GoError) (init1 : List Validator) (last1 : Validator) (x1 y1 : Value),
        errs = [e1, e1] ∧ chain = init1 ++ [last1] ∧ ChainRuns init1 x0 x1 ∧
        last1 x1 = some (y1, some [e1])) := by
  refine ⟨?_, ?_, ?_⟩
  · intro he; subst he; exact All_snoc_nil hinit hlast
  · intro l he; subst he; exact All_snoc_some hinit hlast
  · intro re chain x0 y0 errs hne hprim hall
    obtain ⟨init1, last1, hchain⟩ : ∃ init1 last1, chain = init1 ++ [last1] :=
      ⟨chain.dropLast, chain.getLast hne, (List.dropLast_append_getLast hne).symm⟩
    subst hchain
    have hret : ∃ r, All.loop (init1 ++ [last1]) x0 none = some r := by
      unfold All at hall
      cases hl : All.loop (init1 ++ [last1]) x0 none with
      | none => rw [hl] at hall; simp at hall
      | some r => exact ⟨r, rfl⟩
    obtain ⟨r, hr⟩ := hret
    obtain ⟨x1, y1, e1, hruns, hl1⟩ := All.runs_of_loop init1 last1 x0 none r hr
    cases e1 with
    | none =>
      rw [All_snoc_nil hruns hl1] at hall
      simp at hall
    | some l =>
      rw [All_snoc_some hruns hl1] at hall
      simp only [Option.some.injEq, Prod.mk.injEq] at hall
      have hlast1 : IsPrimitive re last1 := hprim last1 (by simp)
      obtain ⟨e, hle⟩ := hlast1.result x1 y1 l hl1
      subst hle
      exact ⟨e, init1, last1, x1, y1, hall.2.symm, rfl, hruns, hl1⟩

/-- C20, amended, on the chain of `NameValidator` and the string "Jo": the
steps before the last run to the nil value, on which `Max(50)` returns one
error, and `All` returns that error twice. -/
theorem All_depends_on_last_step_witness :
    All ([String', Min 3] ++ [Max 50]) (.str "Jo") =
      some (.nil, some ([(⟨"<nil> is not a string"⟩ : GoError)] ++ [⟨"<nil> is not a string"⟩])) ∧
    All ([String', Min 3] ++ [Max 50]) (.str "John Doe") = some (.str "John Doe", none) :=
  ⟨(All_depends_on_last_step [String', Min 3] (Max 50) (.str "Jo") .nil .nil
      (some [⟨"<nil> is not a string"⟩])
      (@ChainRuns.cons _ _ _ (.str "Jo") _ none (by decide)
        (@ChainRuns.cons _ _ _ .nil _ (some [⟨"Jo must have at lease 3 characters"⟩]) (by decide)
          (ChainRuns.nil _)))
      (by decide)).2.1 _ rfl,
   (All_depends_on_last_step [String', Min 3] (Max 50) (.str "John Doe") (.str "John Doe")
      (.str "John Doe") none
      (@ChainRuns.cons _ _ _ (.str "John Doe") _ none (by decide)
        (@ChainRuns.cons _ _ _ (.str "John Doe") _ none (by decide)
          (ChainRuns.nil _)))
      (by decide)).1 rfl⟩

/-! ## The claims on the domain validators -/

theorem NameValidator_cases (v : Value) :
    (∃ s : String, v = .str s ∧ 3 ≤ s.utf8ByteSize ∧ s.utf8ByteSize ≤ 50 ∧
      NameValidator v = some (v, none)) ∨
    ((¬ ∃ s : String, v = .str s ∧ 3 ≤ s.utf8ByteSize ∧ s.utf8ByteSize ≤ 50) ∧
      ∃ e : GoError, NameValidator v = some (.nil, some [e, e])) := by
  cases v with
  | str s =>
    by_cases h1 : (s.utf8ByteSize : Int) < 3
    · right
      refine ⟨?_, notAString .nil, ?_⟩
      · rintro ⟨s', hs, h3, _⟩
        injection hs with hs; subst hs; omega
      · simp [NameValidator, All, All.loop, String', Min, Max, h1, ErrSlice.append,
          ErrSlice.toList]
    · by_cases h2 : (s.utf8ByteSize : Int) > 50
      · right
        refine ⟨?_, ⟨s ++ " must have at most " ++ toString (50 : Int) ++ " characters"⟩, ?_⟩
        · rintro ⟨s', hs, _, h50⟩
          injection hs with hs; subst hs; omega
        · simp [NameValidator, All, All.loop, String', Min, Max, h1, h2, ErrSlice.append,
            ErrSlice.toList]
      · left
        refine ⟨s, rfl, by omega, by omega, ?_⟩
        simp [NameValidator, All, All.loop, String', Min, Max, h1, h2]
  | nil => exact Or.inr ⟨by simp, notAString .nil, rfl⟩
  | int k => exact Or.inr ⟨by simp, notAString .nil, rfl⟩
  | bool b => exact Or.inr ⟨by simp, notAString .nil, rfl⟩
  | other r => exact Or.inr ⟨by simp, notAString .nil, rfl⟩

/-- C15: for every value `v`, `NameValidator` succeeds (returns a nil error
slice) if and only if `v` is a string whose length in bytes is at least 3 and
at most 50; on success the value returned is `v`; otherwise it returns the nil
value and a non-empty error list.  It succeeds on "John Doe" and fails on
"Jo". -/
theorem NameValidator_spec (v : Value) :
    ((∃ y : Value, NameValidator v = some (y, none)) ↔
      ∃ s : String, v = .str s ∧ 3 ≤ s.utf8ByteSize ∧ s.utf8ByteSize ≤ 50) ∧
    (∀ y : Value, NameValidator v = some (y, none) → y = v) ∧
    ((¬ ∃ s : String, v = .str s ∧ 3 ≤ s.utf8ByteSize ∧ s.utf8ByteSize ≤ 50) →
      ∃ l : List GoError, l ≠ [] ∧ NameValidator v = some (.nil, some l)) ∧
    NameValidator (.str "John Doe") = some (.str "John Doe", none) ∧
    NameValidator (.str "Jo") =
      some (.nil, some [⟨"<nil> is not a string"⟩, ⟨"<nil> is not a string"⟩]) := by
  refine ⟨?_, ?_, ?_, by decide, by decide⟩
  · rcases NameValidator_cases v with ⟨s, hs, h3, h50, hv⟩ | ⟨hn, e, hv⟩
    · exact ⟨fun _ => ⟨s, hs, h3, h50⟩, fun _ => ⟨v, hv⟩⟩
    · constructor
      · rintro ⟨y, hy⟩; rw [hv] at hy; simp at hy
      · intro h; exact absurd h hn
  · intro y hy
    rcases NameValidator_cases v with ⟨s, hs, h3, h50, hv⟩ | ⟨hn, e, hv⟩
    · rw [hv] at hy; simp at hy; exact hy.symm
    · rw [hv] at hy; simp at hy
  · intro hn
    rcases NameValidator_cases v with ⟨s, hs, h3, h50, hv⟩ | ⟨_, e, hv⟩
    · exact absurd ⟨s, hs, h3, h50⟩ hn
    · exact ⟨[e, e], by simp, hv⟩

/-- C15 on a value that is not a string and on a string of 51 bytes. -/
theorem NameValidator_spec_witness :
    (∃ l : List GoError, l ≠ [] ∧ NameValidator (.int 42) = some (.nil, some l)) ∧
    (∃ l : List GoError, l ≠ [] ∧
      NameValidator (.str "123456789012345678901234567890123456789012345678901") =
        some (.nil, some l)) :=
  ⟨(NameValidator_spec (.int 42)).2.2.1 (by simp),
   (NameValidator_spec (.str "123456789012345678901234567890123456789012345678901")).2.2.1
     (by
       rintro ⟨s, hs, _, h50⟩
       injection hs with hs
       subst hs
       revert h50
       decide)⟩

/-! ## Lemmas on the model of `regexp` -/

theorem matchStar_iff (p : Char → Bool) (k : List Char → Bool) (s : List Char) :
    matchStar p k s = true ↔
      ∃ a b : List Char, s = a ++ b ∧ (∀ c ∈ a, p c = true) ∧ k b = true := by
  induction s with
  | nil =>
    simp only [matchStar]
    constructor
    · intro h; exact ⟨[], [], rfl, by simp, h⟩
    · rintro ⟨a, b, hab, _, hk⟩
      have hb : b = [] := by
        cases a with
        | nil => simpa using hab.symm
        | cons c a => simp at hab
      rw [← hb]; exact hk
  | cons c cs ih =>
    simp only [matchStar, Bool.or_eq_true, Bool.and_eq_true, ih]
    constructor
    · rintro (h | ⟨hc, a, b, hab, ha, hk⟩)
      · exact ⟨[], c :: cs, rfl, by simp, h⟩
      · refine ⟨c :: a, b, by rw [hab]; rfl, ?_, hk⟩
        intro d hd
        rcases List.mem_cons.mp hd with h | h
        · rw [h]; exact hc
        · exact ha d h
    · rintro ⟨a, b, hab, ha, hk⟩
      cases a with
      | nil =>
        left
        simp only [List.nil_append] at hab
        rw [hab]; exact hk
      | cons d a =>
        right
        simp only [List.cons_append, List.cons.injEq] at hab
        refine ⟨?_, a, b, hab.2, fun e he => ha e (List.mem_cons_of_mem _ he), hk⟩
        rw [hab.1]; exact ha d (List.mem_cons_self _ _)

theorem matchCount_iff (p : Char → Bool) (k : List Char → Bool) (n : Nat) :
    ∀ s : List Char, matchCount p k n s = true ↔
      ∃ a b : List Char, s = a ++ b ∧ a.length = n ∧ (∀ c ∈ a, p c = true) ∧ k b = true := by
  induction n with
  | zero =>
    intro s
    simp only [matchCount]
    constructor
    · intro h; exact ⟨[], s, rfl, rfl, by simp, h⟩
    · rintro ⟨a, b, hab, hlen, _, hk⟩
      have ha : a = [] := List.length_eq_zero.mp hlen
      subst ha
      simp only [List.nil_append] at hab
      rw [hab]; exact hk
  | succ n ih =>
    intro s
    cases s with
    | nil =>
      simp only [matchCount]
      constructor
      · intro h; exact absurd h (by simp)
      · rintro ⟨a, b, hab, hlen, _, _⟩
        cases a with
        | nil => simp at hlen
        | cons c a => simp at hab
    | cons c cs =>
      simp only [matchCount, Bool.and_eq_true, ih]
      constructor
      · rintro ⟨hc, a, b, hab, hlen, ha, hk⟩
        refine ⟨c :: a, b, by rw [hab]; rfl, by simp [hlen], ?_, hk⟩
        intro d hd
        rcases List.mem_cons.mp hd with h | h
        · rw [h]; exact hc
        · exact ha d h
      · rintro ⟨a, b, hab, hlen, ha, hk⟩
        cases a with
        | nil => simp at hlen
        | cons d a =>
          simp only [List.cons_append, List.cons.injEq] at hab
          simp only [List.length_cons, Nat.add_right_cancel_iff] at hlen
          refine ⟨?_, a, b, hab.2, hlen, fun e he => ha e (List.mem_cons_of_mem _ he), hk⟩
          rw [hab.1]; exact ha d (List.mem_cons_self _ _)

/-- One or more characters satisfying `p`, then `k`. -/
theorem matchPlus_iff (p : Char → Bool) (k : List Char → Bool) (s : List Char) :
    matchCount p (matchStar p k) 1 s = true ↔
      ∃ a b : List Char, s = a ++ b ∧ a ≠ [] ∧ (∀ c ∈ a, p c = true) ∧ k b = true := by
  rw [matchCount_iff]
  constructor
  · rintro ⟨a, b, hab, hlen, ha, hk⟩
    obtain ⟨a', b', hab', ha', hk'⟩ := (matchStar_iff p k b).mp hk
    refine ⟨a ++ a', b', by rw [hab, hab', List.append_assoc], ?_, ?_, hk'⟩
    · intro h
      have := congrArg List.length h
      simp [hlen] at this
    · intro c hc
      rcases List.mem_append.mp hc with h | h
      · exact ha c h
      · exact ha' c h
  · rintro ⟨a, b, hab, hne, ha, hk⟩
    cases a with
    | nil => exact absurd rfl hne
    | cons c a =>
      refine ⟨[c], a ++ b, by rw [hab]; rfl, rfl, ?_, ?_⟩
      · intro d hd
        rw [List.mem_singleton.mp hd]
        exact ha c (List.mem_cons_self _ _)
      · exact (matchStar_iff p k (a ++ b)).mpr
          ⟨a, b, rfl, fun e he => ha e (List.mem_cons_of_mem _ he), hk⟩

/-- The character `ch`, then `k`. -/
theorem matchChar_iff (ch : Char) (k : List Char → Bool) (s : List Char) :
    matchCount (CharClass.test ⟨false, [(ch, ch)]⟩) k 1 s = true ↔
      ∃ b : List Char, s = ch :: b ∧ k b = true := by
  rw [matchCount_iff]
  have htest : ∀ c : Char, CharClass.test ⟨false, [(ch, ch)]⟩ c = true ↔ c = ch := by
    intro c
    simp only [CharClass.test, List.any_cons, List.any_nil, Bool.or_false, Bool.false_xor,
      Bool.and_eq_true, decide_eq_true_eq]
    constructor
    · rintro ⟨h1, h2⟩; exact Char.ext (UInt32.le_antisymm h2 h1)
    · intro h; rw [h]; exact ⟨UInt32.le_refl _, UInt32.le_refl _⟩
  constructor
  · rintro ⟨a, b, hab, hlen, ha, hk⟩
    cases a with
    | nil => simp at hlen
    | cons c a =>
      have ha' : a = [] := by
        simp only [List.length_cons, Nat.add_left_eq_self] at hlen
        exact List.length_eq_zero.mp hlen
      subst ha'
      have hc : c = ch := (htest c).mp (ha c (List.mem_cons_self _ _))
      subst hc
      exact ⟨b, hab, hk⟩
  · rintro ⟨b, hs, hk⟩
    refine ⟨[ch], b, hs, rfl, ?_, hk⟩
    intro d hd
    rw [List.mem_singleton.mp hd]
    exact (htest ch).mpr rfl

theorem test_digit (c : Char) :
    CharClass.test ⟨false, [('0', '9')]⟩ c = c.isDigit := by
  simp only [CharClass.test, List.any_cons, List.any_nil, Bool.or_false, Bool.false_xor]
  rfl

theorem compile_fiscal :
    goRegexp.MustCompile "^[0-9]{10}$" = some (Prog.MatchString fiscalProg) := rfl

theorem compile_email :
    goRegexp.MustCompile "^[a-zA-Z0-9_.+-]+@[a-zA-Z0-9-]+\\.[a-zA-Z0-9-.]+$" =
      some (Prog.MatchString emailProg) := rfl

theorem range_single (ch c : Char) : (ch ≤ c ∧ c ≤ ch) ↔ c = ch := by
  constructor
  · rintro ⟨h1, h2⟩; exact Char.ext (UInt32.le_antisymm h2 h1)
  · intro h; rw [h]; exact ⟨UInt32.le_refl _, UInt32.le_refl _⟩

theorem isAlphanum_iff (c : Char) :
    c.isAlphanum = true ↔
      (('a' ≤ c ∧ c ≤ 'z') ∨ ('A' ≤ c ∧ c ≤ 'Z') ∨ ('0' ≤ c ∧ c ≤ '9')) := by
  have hU : c.isUpper = true ↔ ('A' ≤ c ∧ c ≤ 'Z') := by
    simp only [Char.isUpper, Bool.and_eq_true, decide_eq_true_eq]; rfl
  have hL : c.isLower = true ↔ ('a' ≤ c ∧ c ≤ 'z') := by
    simp only [Char.isLower, Bool.and_eq_true, decide_eq_true_eq]; rfl
  have hD : c.isDigit = true ↔ ('0' ≤ c ∧ c ≤ '9') := by
    simp only [Char.isDigit, Bool.and_eq_true, decide_eq_true_eq]; rfl
  simp only [Char.isAlphanum, Char.isAlpha, Bool.or_eq_true, hU, hL, hD]
  tauto

theorem test_local (c : Char) : emailLocalClass.test c = isLocalChar c := by
  rw [Bool.eq_iff_iff]
  simp only [emailLocalClass, isLocalChar, CharClass.test, List.any_cons, List.any_nil,
    Bool.or_false, Bool.false_xor, Bool.or_eq_true, Bool.and_eq_true, decide_eq_true_eq,
    beq_iff_eq, isAlphanum_iff, range_single]
  tauto

theorem test_domain (c : Char) : emailDomainClass.test c = isDomainChar c := by
  rw [Bool.eq_iff_iff]
  simp only [emailDomainClass, isDomainChar, CharClass.test, List.any_cons, List.any_nil,
    Bool.or_false, Bool.false_xor, Bool.or_eq_true, Bool.and_eq_true, decide_eq_true_eq,
    beq_iff_eq, isAlphanum_iff, range_single]
  tauto

theorem test_tail (c : Char) : emailTailClass.test c = isTailChar c := by
  rw [Bool.eq_iff_iff]
  simp only [emailTailClass, isTailChar, CharClass.test, List.any_cons, List.any_nil,
    Bool.or_false, Bool.false_xor, Bool.or_eq_true, Bool.and_eq_true, decide_eq_true_eq,
    beq_iff_eq, isAlphanum_iff, range_single]
  tauto

theorem fiscalProg_match (s : String) :
    fiscalProg.MatchString s = true ↔
      s.length = 10 ∧ ∀ c ∈ s.data, c.isDigit = true := by
  show matchCount (CharClass.test ⟨false, [('0', '9')]⟩)
    (fun s => !true || s.isEmpty) 10 s.data = true ↔ _
  rw [matchCount_iff]
  constructor
  · rintro ⟨a, b, hab, hlen, ha, hk⟩
    have hb : b = [] := by simpa using hk
    subst hb
    rw [List.append_nil] at hab
    refine ⟨by rw [String.length, hab, hlen], ?_⟩
    intro c hc
    rw [hab] at hc
    rw [← test_digit]; exact ha c hc
  · rintro ⟨hlen, hall⟩
    refine ⟨s.data, [], by simp, hlen, ?_, rfl⟩
    intro c hc
    rw [test_digit]; exact hall c hc

theorem emailProg_match (s : String) :
    emailProg.MatchString s = true ↔
      ∃ L D T : List Char, s.data = L ++ '@' :: (D ++ '.' :: T) ∧
        L ≠ [] ∧ D ≠ [] ∧ T ≠ [] ∧ (∀ c ∈ L, isLocalChar c = true) ∧
        (∀ c ∈ D, isDomainChar c = true) ∧ (∀ c ∈ T, isTailChar c = true) := by
  show matchCount emailLocalClass.test (matchStar emailLocalClass.test
    (matchCount (CharClass.test ⟨false, [('@', '@')]⟩)
      (matchCount emailDomainClass.test (matchStar emailDomainClass.test
        (matchCount (CharClass.test ⟨false, [('.', '.')]⟩)
          (matchCount emailTailClass.test (matchStar emailTailClass.test
            (fun s => !true || s.isEmpty)) 1) 1)) 1) 1)) 1 s.data = true ↔ _
  rw [matchPlus_iff]
  constructor
  · rintro ⟨L, b1, h1, hL, hLall, hk1⟩
    obtain ⟨b2, h2, hk2⟩ := (matchChar_iff _ _ _).mp hk1
    obtain ⟨D, b3, h3, hD, hDall, hk3⟩ := (matchPlus_iff _ _ _).mp hk2
    obtain ⟨b4, h4, hk4⟩ := (matchChar_iff _ _ _).mp hk3
    obtain ⟨T, b5, h5, hT, hTall, hk5⟩ := (matchPlus_iff _ _ _).mp hk4
    have hb5 : b5 = [] := by simpa using hk5
    subst hb5
    rw [List.append_nil] at h5
    subst h5; subst h4; subst h3; subst h2
    exact ⟨L, D, b4, h1, hL, hD, hT,
      fun c hc => by rw [← test_local]; exact hLall c hc,
      fun c hc => by rw [← test_domain]; exact hDall c hc,
      fun c hc => by rw [← test_tail]; exact hTall c hc⟩
  · rintro ⟨L, D, T, hs, hL, hD, hT, hLall, hDall, hTall⟩
    refine ⟨L, '@' :: (D ++ '.' :: T), hs, hL,
      fun c hc => by rw [test_local]; exact hLall c hc, ?_⟩
    refine (matchChar_iff _ _ _).mpr ⟨D ++ '.' :: T, rfl, ?_⟩
    refine (matchPlus_iff _ _ _).mpr ⟨D, '.' :: T, rfl, hD,
      fun c hc => by rw [test_domain]; exact hDall c hc, ?_⟩
    refine (matchChar_iff _ _ _).mpr ⟨T, rfl, ?_⟩
    exact (matchPlus_iff _ _ _).mpr ⟨T, [], by simp, hT,
      fun c hc => by rw [test_tail]; exact hTall c hc, rfl⟩

theorem All_String_Match (re : Regexp) (p : String) (m : String → Bool)
    (hp : re.MustCompile p = some m) (v : Value) :
    (∃ s : String, v = .str s ∧ m s = true ∧
      All [String', Match re p] v = some (v, none)) ∨
    ((¬ ∃ s : String, v = .str s ∧ m s = true) ∧
      ∃ e : GoError, All [String', Match re p] v = some (.nil, some [e, e])) := by
  cases v with
  | str s =>
    cases hm : m s with
    | true =>
      left
      refine ⟨s, rfl, hm, ?_⟩
      simp [All, All.loop, String', Match, hp, hm]
    | false =>
      right
      refine ⟨?_, ⟨s ++ " does not match " ++ p⟩, ?_⟩
      · rintro ⟨s', hs, hm'⟩
        injection hs with hs; subst hs
        rw [hm] at hm'; exact absurd hm' (by simp)
      · simp [All, All.loop, String', Match, hp, hm, ErrSlice.append, ErrSlice.toList]
  | nil => exact Or.inr ⟨by simp, notAString .nil, rfl⟩
  | int k => exact Or.inr ⟨by simp, notAString .nil, rfl⟩
  | bool b => exact Or.inr ⟨by simp, notAString .nil, rfl⟩
  | other r => exact Or.inr ⟨by simp, notAString .nil, rfl⟩

/-- The three parts of the specification of a validator `All(String(), Match(p))`
from the characterisation `P` of the strings that match `p`. -/
theorem All_String_Match_spec (re : Regexp) (p : String) (m : String → Bool)
    (hp : re.MustCompile p = some m) (P : String → Prop) (hP : ∀ s, m s = true ↔ P s)
    (v : Value) :
    ((∃ y : Value, All [String', Match re p] v = some (y, none)) ↔
      ∃ s : String, v = .str s ∧ P s) ∧
    (∀ y : Value, All [String', Match re p] v = some (y, none) → y = v) ∧
    ((¬ ∃ s : String, v = .str s ∧ P s) →
      ∃ l : List GoError, l ≠ [] ∧ All [String', Match re p] v = some (.nil, some l)) := by
  refine ⟨?_, ?_, ?_⟩
  · rcases All_String_Match re p m hp v with ⟨s, hs, hm, hv⟩ | ⟨hn, e, hv⟩
    · exact ⟨fun _ => ⟨s, hs, (hP s).mp hm⟩, fun _ => ⟨v, hv⟩⟩
    · constructor
      · rintro ⟨y, hy⟩; rw [hv] at hy; simp at hy
      · rintro ⟨s, hs, hps⟩; exact absurd ⟨s, hs, (hP s).mpr hps⟩ hn
  · intro y hy
    rcases All_String_Match re p m hp v with ⟨s, hs, hm, hv⟩ | ⟨hn, e, hv⟩
    · rw [hv] at hy; simp at hy; exact hy.symm
    · rw [hv] at hy; simp at hy
  · intro hn
    rcases All_String_Match re p m hp v with ⟨s, hs, hm, hv⟩ | ⟨_, e, hv⟩
    · exact absurd ⟨s, hs, (hP s).mp hm⟩ hn
    · exact ⟨[e, e], by simp, hv⟩

/-- C16: with the model of `regexp`, for every value `v`,
`FiscalNumberValidator` succeeds (returns a nil error slice) if and only if
`v` is a string of exactly 10 characters, each an ASCII digit; on success the
value returned is `v`; otherwise it returns the nil value and a non-empty
error list.  It succeeds on "1234567890" and fails on "123" and on
"1234567890" followed by a newline. -/
theorem FiscalNumberValidator_spec (v : Value) :
    ((∃ y : Value, FiscalNumberValidator goRegexp v = some (y, none)) ↔
      ∃ s : String, v = .str s ∧ (s.length = 10 ∧ ∀ c ∈ s.data, c.isDigit = true)) ∧
    (∀ y : Value, FiscalNumberValidator goRegexp v = some (y, none) → y = v) ∧
    ((¬ ∃ s : String, v = .str s ∧ (s.length = 10 ∧ ∀ c ∈ s.data, c.isDigit = true)) →
      ∃ l : List GoError, l ≠ [] ∧
        FiscalNumberValidator goRegexp v = some (.nil, some l)) ∧
    FiscalNumberValidator goRegexp (.str "1234567890") = some (.str "1234567890", none) ∧
    FiscalNumberValidator goRegexp (.str "123") =
      some (.nil, some [⟨"123 does not match ^[0-9]{10}$"⟩,
        ⟨"123 does not match ^[0-9]{10}$"⟩]) ∧
    FiscalNumberValidator goRegexp (.str "1234567890\n") =
      some (.nil, some [⟨"1234567890\n does not match ^[0-9]{10}$"⟩,
        ⟨"1234567890\n does not match ^[0-9]{10}$"⟩]) := by
  have h := All_String_Match_spec goRegexp "^[0-9]{10}$" _ compile_fiscal _
    fiscalProg_match v
  exact ⟨h.1, h.2.1, h.2.2, by decide, by decide, by decide⟩

/-- C16 on a value that is not a string. -/
theorem FiscalNumberValidator_spec_witness :
    ∃ l : List GoError, l ≠ [] ∧
      FiscalNumberValidator goRegexp (.int 1234567890) = some (.nil, some l) :=
  (FiscalNumberValidator_spec (.int 1234567890)).2.2.1 (by simp)

/-- C17: with the model of `regexp`, for every value `v`, `EmailValidator`
succeeds (returns a nil error slice) if and only if `v` is a string of the
form `L@D.T`, with nothing before `L` or after `T`, where `L` is a non-empty
run of ASCII letters, digits and the characters `_`, `.`, `+`, `-`, `D` a
non-empty run of ASCII letters, digits and `-`, and `T` a non-empty run of
ASCII letters, digits, `-` and `.`; on success the value returned is `v`.  It
succeeds on "john@gmail.com" and fails on "not-an-email". -/
theorem EmailValidator_spec (v : Value) :
    ((∃ y : Value, EmailValidator goRegexp v = some (y, none)) ↔
      ∃ s : String, v = .str s ∧
        ∃ L D T : List Char, s.data = L ++ '@' :: (D ++ '.' :: T) ∧
          L ≠ [] ∧ D ≠ [] ∧ T ≠ [] ∧ (∀ c ∈ L, isLocalChar c = true) ∧
          (∀ c ∈ D, isDomainChar c = true) ∧ (∀ c ∈ T, isTailChar c = true)) ∧
    (∀ y : Value, EmailValidator goRegexp v = some (y, none) → y = v) ∧
    EmailValidator goRegexp (.str "john@gmail.com") = some (.str "john@gmail.com", none) ∧
    EmailValidator goRegexp (.str "not-an-email") =
      some (.nil, some [⟨"not-an-email does not match " ++
          "^[a-zA-Z0-9_.+-]+@[a-zA-Z0-9-]+\\.[a-zA-Z0-9-.]+$"⟩,
        ⟨"not-an-email does not match " ++
          "^[a-zA-Z0-9_.+-]+@[a-zA-Z0-9-]+\\.[a-zA-Z0-9-.]+$"⟩]) := by
  have h := All_String_Match_spec goRegexp
    "^[a-zA-Z0-9_.+-]+@[a-zA-Z0-9-]+\\.[a-zA-Z0-9-.]+$" _ compile_email _ emailProg_match v
  exact ⟨h.1, h.2.1, by decide, by decide⟩

/-- C17 on "john@gmail.com", from its three parts "john", "gmail" and "com". -/
theorem EmailValidator_spec_witness :
    ∃ y : Value, EmailValidator goRegexp (.str "john@gmail.com") = some (y, none) :=
  (EmailValidator_spec (.str "john@gmail.com")).1.mpr
    ⟨"john@gmail.com", rfl, "john".data, "gmail".data, "com".data, rfl,
      by decide, by decide, by decide, by decide, by decide, by decide⟩

end Validation
